import Mathlib

/-!
# Verification of the c64ttf glyph vectorization core

This file gives a shallow embedding of the vectorization pipeline of
`c64ttf.py` (`unpackChar`, `generateEdges`, `scaleEdges`, `mergeContours`,
`vectorizeGlyph`) and proves the specified properties about it.

Modelling conventions:
* Python's nested integer lists of points `[x, y]` become `Point = Int × Int`,
  edges `[[x1,y1],[x2,y2]]` become `Edge = Point × Point`.
* Python's `sorted` (lexicographic on nested lists) becomes an insertion sort
  by the corresponding lexicographic boolean order.
* The `IndexError` raised by `[edge for edge in edgeList if ...][0]` on an
  empty candidate list is modelled by `Except.error VecError.indexError`.
* The two `while` loops of `mergeContours` are modelled with explicit fuel;
  `VecError.outOfFuel` marks fuel exhaustion, and we prove the chosen fuel
  (`edges.length + 1`) is always sufficient, i.e. the loops terminate.
-/

namespace C64

/-- A lattice point `(x, y)` in grid or scaled coordinates. -/
abbrev Point : Type := Int × Int

/-- A directed edge: ordered pair of points (start, end). -/
abbrev Edge : Type := Point × Point

/-- A contour: an ordered list of polygon vertices, closing edge implicit. -/
abbrev Contour : Type := List Point

/-- `unpackChar` from the source: unpack the bits of each packed row
(bit 7 leftmost) and reverse the row order so `[0][0]` is the lower left. -/
def unpackChar (glyphData : List Nat) : List (List Bool) :=
  glyphData.reverse.map (fun row =>
    (List.range 8).map (fun j => decide (((row >>> (7 - j)) &&& 1) = 1)))

/-- Read cell `(x, y)` of a boolean grid (row-major, row 0 at the bottom).
Out-of-range reads yield `false`; on rectangular grids, within the loop
bounds used by `generateEdges`, this agrees with Python's `bitmap[y][x]`. -/
def getCell (bm : List (List Bool)) (y x : Nat) : Bool :=
  (bm.getD y []).getD x false

/-- The (up to four) clockwise boundary edges emitted for the filled cell
`(x, y)`, exactly as in the body of the double loop of `generateEdges`:
left, above, right, below, each guarded by the neighbour being absent or
unfilled. -/
def cellEdges (bm : List (List Bool)) (width height x y : Nat) : List Edge :=
  (if x = 0 ∨ getCell bm y (x - 1) = false then
      [(((x : Int), (y : Int)), ((x : Int), (y : Int) + 1))] else [])
  ++ (if y = height - 1 ∨ getCell bm (y + 1) x = false then
      [(((x : Int), (y : Int) + 1), ((x : Int) + 1, (y : Int) + 1))] else [])
  ++ (if x = width - 1 ∨ getCell bm y (x + 1) = false then
      [(((x : Int) + 1, (y : Int) + 1), ((x : Int) + 1, (y : Int)))] else [])
  ++ (if y = 0 ∨ getCell bm (y - 1) x = false then
      [(((x : Int) + 1, (y : Int)), ((x : Int), (y : Int)))] else [])

/-- `generateEdges` from the source: scan the grid and emit up to four
boundary edges around every filled cell. -/
def generateEdges (bm : List (List Bool)) : List Edge :=
  (List.range bm.length).flatMap (fun y =>
    (List.range (bm.headD []).length).flatMap (fun x =>
      if getCell bm y x then cellEdges bm (bm.headD []).length bm.length x y
      else []))

/-- The per-point affine map of `scaleEdges`. -/
def scalePoint (pixelSize descent : Int) (p : Point) : Point :=
  (p.1 * pixelSize, (p.2 - descent) * pixelSize)

/-- `scaleEdges` from the source: map every point of every edge through
`(x, y) ↦ (x * pixelSize, (y - descent) * pixelSize)`. -/
def scaleEdges (edges : List Edge) (pixelSize descent : Int) : List Edge :=
  edges.map (fun e =>
    (scalePoint pixelSize descent e.1, scalePoint pixelSize descent e.2))

/-- Lexicographic order on edges, matching Python's comparison of the nested
lists `[[x1, y1], [x2, y2]]`. -/
def edgeLe (e f : Edge) : Bool :=
  decide (e.1.1 < f.1.1) || (e.1.1 == f.1.1 &&
    (decide (e.1.2 < f.1.2) || (e.1.2 == f.1.2 &&
      (decide (e.2.1 < f.2.1) || (e.2.1 == f.2.1 && decide (e.2.2 ≤ f.2.2))))))

/-- Insert an edge into an already sorted list (ascending by `edgeLe`). -/
def insertEdge (e : Edge) : List Edge → List Edge
  | [] => [e]
  | f :: fs => if edgeLe e f then e :: f :: fs else f :: insertEdge e fs

/-- Python's `sorted(edges)`: ascending lexicographic sort. -/
def pySorted (l : List Edge) : List Edge := l.foldr insertEdge []

/-- Replace the last element of a list (Python's `contour[-1] = p`). -/
def setLast (l : List Point) (p : Point) : List Point := l.dropLast ++ [p]

/-- One contour-accumulator update of the inner loop of `mergeContours`:
if the new endpoint shares an x or y coordinate with the start of the
current edge (collinear continuation), overwrite the last stored point,
otherwise append a new vertex. -/
def updContour (contour : List Point) (current nxt : Edge) : List Point :=
  if nxt.2.1 = current.1.1 ∨ nxt.2.2 = current.1.2 then setLast contour nxt.2
  else contour ++ [nxt.2]

/-- Failure modes of the stitching stage: `indexError` models the Python
`IndexError` raised when no continuation candidate exists, `outOfFuel`
marks exhaustion of the termination fuel (proved unreachable). -/
inductive VecError : Type where
  | indexError : VecError
  | outOfFuel : VecError
deriving DecidableEq

/-- The inner `while current[1] != start[0]` loop of `mergeContours`:
repeatedly take the first remaining edge starting at the current edge's end,
update the contour accumulator, and remove the consumed edge. -/
def innerLoop : Nat → Edge → Edge → List Point → List Edge →
    Except VecError (List Point × List Edge)
  | 0, _, _, _, _ => .error .outOfFuel
  | fuel + 1, start, current, contour, edgeList =>
    if current.2 = start.1 then .ok (contour, edgeList)
    else
      match (edgeList.filter (fun e => e.1 == current.2)).head? with
      | none => .error .indexError
      | some nxt =>
          innerLoop fuel start nxt (updContour contour current nxt)
            (edgeList.erase nxt)

/-- The outer `while len(edgeList) > 1` loop of `mergeContours`: seed a new
contour with the first remaining edge, stitch it closed with `innerLoop`,
record it without its last point, and continue. -/
def outerLoop : Nat → List Edge → List Contour → Except VecError (List Contour)
  | 0, _, _ => .error .outOfFuel
  | fuel + 1, edgeList, contours =>
    if edgeList.length ≤ 1 then .ok contours
    else
      match edgeList with
      | [] => .ok contours
      | start :: rest =>
          match innerLoop (rest.length + 1) start start [start.1, start.2]
              rest with
          | .error e => .error e
          | .ok (contour, edgeList') =>
              outerLoop fuel edgeList' (contours ++ [contour.dropLast])

/-- `mergeContours` from the source: sort the edges and stitch them into
contours. -/
def mergeContours (edges : List Edge) : Except VecError (List Contour) :=
  outerLoop (edges.length + 1) (pySorted edges) []

/-- `vectorizeGlyph` from the source: the full pipeline
unpack → edges → scale → stitch, with the empty-input guard. -/
def vectorizeGlyph (glyphData : List Nat) (pixelSize descent : Int) :
    Except VecError (List Contour) :=
  if glyphData = [] then .ok []
  else
    mergeContours
      (scaleEdges (generateEdges (unpackChar glyphData)) pixelSize descent)

/-! ## Derived notions used to state the properties -/

/-- The grid is rectangular: every row has the width of the first row
(the width `generateEdges` reads). -/
def Rect (bm : List (List Bool)) : Prop :=
  ∀ r ∈ bm, r.length = (bm.headD []).length

/-- Is cell `(cx, cy)` inside the grid and filled? -/
def cellFilled (bm : List (List Bool)) (cx cy : Int) : Bool :=
  decide (0 ≤ cx) && decide (cx < ((bm.headD []).length : Int)) &&
  decide (0 ≤ cy) && decide (cy < (bm.length : Int)) &&
  getCell bm cy.toNat cx.toNat

/-- Number of times the directed segment `p → q` crosses, in the upward
direction, the leftward horizontal ray from the centre of cell `(cx, cy)`
(the ray at height `cy + 1/2`, abscissae `≤ cx + 1/2`). Only vertical
segments can cross it. -/
def crossUpF (cx cy : Int) (p q : Point) : Nat :=
  if p.1 = q.1 ∧ p.1 ≤ cx ∧ p.2 ≤ cy ∧ cy < q.2 then 1 else 0

/-- Downward crossings of the same ray by the segment `p → q`. -/
def crossDownF (cx cy : Int) (p q : Point) : Nat :=
  if p.1 = q.1 ∧ p.1 ≤ cx ∧ q.2 ≤ cy ∧ cy < p.2 then 1 else 0

/-- Total `m`-count over the consecutive segments of an open polyline. -/
def polyOpen (m : Point → Point → Nat) : List Point → Nat
  | [] => 0
  | [_] => 0
  | p :: q :: rest => m p q + polyOpen m (q :: rest)

/-- Total `m`-count over a closed polygon: the open polyline plus the
implicit closing segment from the last vertex back to the first. -/
def polyClosed (m : Point → Point → Nat) (c : Contour) : Nat :=
  polyOpen m (c ++ c.take 1)

/-- Total `m`-count over a list of edges. -/
def edgesCross (m : Point → Point → Nat) (L : List Edge) : Nat :=
  (L.map (fun e => m e.1 e.2)).sum

/-- Total `m`-count over a list of contours (closing edges included). -/
def contoursCross (m : Point → Point → Nat) (cs : List Contour) : Nat :=
  (cs.map (polyClosed m)).sum

/-- Cell `(cx, cy)` is inside the contour set under the even-odd fill rule:
the ray from its centre crosses the contours an odd number of times. -/
def cellEO (cs : List Contour) (cx cy : Int) : Prop :=
  (contoursCross (crossUpF cx cy) cs + contoursCross (crossDownF cx cy) cs)
    % 2 = 1

/-- Cell `(cx, cy)` is inside the contour set under the nonzero winding
rule: signed crossings (up minus down) of the ray are nonzero. -/
def cellNZ (cs : List Contour) (cx cy : Int) : Prop :=
  (contoursCross (crossUpF cx cy) cs : Int) ≠
    (contoursCross (crossDownF cx cy) cs : Int)

/-- Out-degree minus in-degree of vertex `v` in an edge list. -/
def balE (L : List Edge) (v : Point) : Int :=
  (L.countP (fun e => e.1 == v) : Int) - (L.countP (fun e => e.2 == v) : Int)

/-- No edge of the list has its exact reversal also in the list. -/
def NoRev (L : List Edge) : Prop := ∀ e ∈ L, (e.2, e.1) ∉ L

/-- The four axis unit vectors. -/
def unitVecs : List Point := [(1, 0), (-1, 0), (0, 1), (0, -1)]

/-- The edge is a unit-length axis-aligned step. -/
def IsUnit (e : Edge) : Prop := e.2 - e.1 ∈ unitVecs

/-- A segment-count function that is additive when a straight run
`B - k·d → B` is extended one more unit step `B → B + d` in the same
direction `d` (the situation produced by the collinear merge of
`mergeContours`). -/
def MergeAdd (m : Point → Point → Nat) : Prop :=
  ∀ (B d : Point) (k : Nat), 1 ≤ k → d ∈ unitVecs →
    m (B - (k : Int) • d) B + m B (B + d) = m (B - (k : Int) • d) (B + d)

/-- The directed segments of a contour, the implicit closing segment
included. -/
def contourSegs (c : Contour) : List Edge := c.zip (c.drop 1 ++ c.take 1)

/-- No directed segment of `c` appears in `d`, in either direction. -/
def segsDisjoint (c d : Contour) : Bool :=
  (contourSegs c).all (fun e =>
    !((contourSegs d).contains e) && !((contourSegs d).contains (e.2, e.1)))

/-- Every segment of the contour, closing one included, is axis-aligned
and nondegenerate. -/
def segsAxis (c : Contour) : Bool :=
  (contourSegs c).all (fun e =>
    (e.1.1 == e.2.1 && !(e.1.2 == e.2.2)) ||
    (e.1.2 == e.2.2 && !(e.1.1 == e.2.1)))

/-- The scaling map applied to a whole edge. -/
def scaleE (s d : Int) (e : Edge) : Edge :=
  (scalePoint s d e.1, scalePoint s d e.2)

/-- Decides whether a given edge value is one the extractor emits for this
grid: its direction identifies the side and cell, and the fill conditions
must hold. -/
def edgeOK (bm : List (List Bool)) (e : Edge) : Bool :=
  let q := e.2 - e.1
  if q = ((0 : Int), (1 : Int)) then
    cellFilled bm e.1.1 e.1.2 && !cellFilled bm (e.1.1 - 1) e.1.2
  else if q = ((1 : Int), (0 : Int)) then
    cellFilled bm e.1.1 (e.1.2 - 1) && !cellFilled bm e.1.1 e.1.2
  else if q = ((0 : Int), (-1 : Int)) then
    cellFilled bm (e.1.1 - 1) e.2.2 && !cellFilled bm e.1.1 e.2.2
  else if q = ((-1 : Int), (0 : Int)) then
    cellFilled bm e.2.1 e.2.2 && !cellFilled bm e.2.1 (e.2.2 - 1)
  else false

/-- Decode the cell a boundary edge was emitted for: the edge direction
identifies the side, from which the cell coordinates follow. -/
def cellOf (e : Edge) : Point :=
  let q := e.2 - e.1
  if q = ((0 : Int), (1 : Int)) then e.1
  else if q = ((1 : Int), (0 : Int)) then (e.1.1, e.1.2 - 1)
  else if q = ((0 : Int), (-1 : Int)) then (e.1.1 - 1, e.2.2)
  else (e.2.1, e.2.2)

end C64

namespace C64

lemma unpack_getD (g : List Nat) (i j : Nat) (hi : i < g.length) (hj : j < 8) :
    ((unpackChar g).getD i []).getD j false =
      decide (((g.getD (g.length - 1 - i) 0) >>> (7 - j)) &&& 1 = 1) := by
  have hb : g.length - 1 - i < g.length := by omega
  simp [unpackChar, List.getD_eq_getElem?_getD, List.getElem?_map,
    List.getElem?_reverse, hi, hj, List.getElem?_eq_getElem hb]

/-- Claim C9: for every sequence of per-row integers, `unpackChar` produces a
grid whose row `i` is input row `n-1-i` (row 0 is the last input row, rows
grow upward), each row has 8 entries, and column `j` holds bit `7-j` of the
row value, so column 0 is the most significant of the low 8 bits and bit
order is preserved left-to-right. -/
theorem C9_unpackChar (g : List Nat) (i j : Nat) (hi : i < g.length) (hj : j < 8) :
    (unpackChar g).length = g.length ∧
    ((unpackChar g).getD i []).length = 8 ∧
    ((unpackChar g).getD i []).getD j false =
      decide (((g.getD (g.length - 1 - i) 0) >>> (7 - j)) &&& 1 = 1) := by
  refine ⟨by simp [unpackChar], ?_, unpack_getD g i j hi hj⟩
  have hb : g.length - 1 - i < g.length := by omega
  simp [unpackChar, List.getD_eq_getElem?_getD, List.getElem?_map,
    List.getElem?_reverse, hi, List.getElem?_eq_getElem hb]

/-- Witness for C9 at a concrete input. -/
theorem C9_witness : 1 < [129, 66].length ∧ 0 < 8 ∧
    ((unpackChar [129, 66]).length = 2 ∧
     ((unpackChar [129, 66]).getD 1 []).length = 8 ∧
     ((unpackChar [129, 66]).getD 1 []).getD 0 false =
       decide ((([129, 66].getD 0 0) >>> 7) &&& 1 = 1)) :=
  ⟨by decide, by decide, C9_unpackChar [129, 66] 1 0 (by decide) (by decide)⟩

/-- Claim C10: `scaleEdges` maps every point `(x, y)` of every edge to
`(x * scale, (y - descent) * scale)`, preserving the list structure (it is a
pointwise map, changing no edge's or point's position), and for every nonzero
scale, dividing each output coordinate by the scale and adding back the
descent to the y coordinate recovers the original integer grid coordinates
exactly. -/
theorem C10_scaleEdges (edges : List Edge) (s d : Int) :
    scaleEdges edges s d = edges.map (fun e =>
      ((e.1.1 * s, (e.1.2 - d) * s), (e.2.1 * s, (e.2.2 - d) * s))) ∧
    (s ≠ 0 → (scaleEdges edges s d).map (fun e =>
      ((e.1.1 / s, e.1.2 / s + d), (e.2.1 / s, e.2.2 / s + d))) = edges) := by
  constructor
  · rfl
  · intro hs
    rw [scaleEdges, List.map_map]
    conv_rhs => rw [← List.map_id edges]
    refine List.map_congr_left ?_
    intro e _
    simp [scalePoint, Function.comp, Int.mul_ediv_cancel _ hs]

/-- Witness for C10 at a concrete edge list, scale 2, descent 5. -/
theorem C10_witness : (2 : Int) ≠ 0 ∧
    (scaleEdges [(((1 : Int), (2 : Int)), ((3 : Int), (4 : Int)))] 2 5 =
      [(((2 : Int), (-6 : Int)), ((6 : Int), (-2 : Int)))] ∧
     (scaleEdges [(((1 : Int), (2 : Int)), ((3 : Int), (4 : Int)))] 2 5).map
       (fun e => ((e.1.1 / 2, e.1.2 / 2 + 5), (e.2.1 / 2, e.2.2 / 2 + 5))) =
       [(((1 : Int), (2 : Int)), ((3 : Int), (4 : Int)))]) := by
  refine ⟨by decide, ?_, (C10_scaleEdges _ 2 5).2 (by decide)⟩
  have := (C10_scaleEdges [(((1 : Int), (2 : Int)), ((3 : Int), (4 : Int)))] 2 5).1
  rw [this]; decide

end C64

namespace C64

/-- Claim C2 (code behaviour at the failing input): `mergeContours` on an
edge pool that ends with exactly one unconsumed edge returns a normal result
`.ok []`, silently dropping the edge, instead of reporting an unpaired
boundary error: the loop guard `while len(edgeList) > 1` exits and discards
the leftover edge. -/
theorem C2_mergeContours_drops_single_edge :
    mergeContours [(((0 : Int), (0 : Int)), ((0 : Int), (1 : Int)))] =
      .ok [] := rfl

/-- Claim C3 counterexample: a concrete edge set on which a stitching step
has two continuation candidates (the sorted pool starts with an edge whose
end point `(0, 1)` is the start of two remaining edges), yet `mergeContours`
completes normally with `.ok`, reporting no error. This refutes the claim
that more than one candidate leads to a reported structural error. -/
theorem C3_counterexample :
    pySorted [(((0 : Int), (0 : Int)), ((0 : Int), (1 : Int))),
              (((0 : Int), (1 : Int)), ((0 : Int), (0 : Int))),
              (((0 : Int), (1 : Int)), ((1 : Int), (1 : Int))),
              (((1 : Int), (1 : Int)), ((0 : Int), (1 : Int)))] =
      (((0 : Int), (0 : Int)), ((0 : Int), (1 : Int))) ::
        [(((0 : Int), (1 : Int)), ((0 : Int), (0 : Int))),
         (((0 : Int), (1 : Int)), ((1 : Int), (1 : Int))),
         (((1 : Int), (1 : Int)), ((0 : Int), (1 : Int)))] ∧
    ([(((0 : Int), (1 : Int)), ((0 : Int), (0 : Int))),
      (((0 : Int), (1 : Int)), ((1 : Int), (1 : Int))),
      (((1 : Int), (1 : Int)), ((0 : Int), (1 : Int)))].filter
        (fun e => e.1 == ((0 : Int), (1 : Int)))).length = 2 ∧
    mergeContours [(((0 : Int), (0 : Int)), ((0 : Int), (1 : Int))),
              (((0 : Int), (1 : Int)), ((0 : Int), (0 : Int))),
              (((0 : Int), (1 : Int)), ((1 : Int), (1 : Int))),
              (((1 : Int), (1 : Int)), ((0 : Int), (1 : Int)))] =
      .ok [[((0 : Int), (0 : Int))], [((0 : Int), (1 : Int))]] :=
  ⟨rfl, rfl, rfl⟩

/-- Claim C3 (amended): at each chain-continuation step, if no remaining
edge starts at the current edge's end point, the stitching step reports an
error (the modelled Python `IndexError`); if one or more candidates exist
(including the ambiguous case of several), it silently proceeds with the
first candidate in pool order - no ambiguity error is ever reported. -/
theorem C3_innerLoop_step (fuel : Nat) (start current : Edge)
    (contour : List Point) (pool : List Edge) (hne : current.2 ≠ start.1) :
    ((pool.filter (fun e => e.1 == current.2)) = [] →
      innerLoop (fuel + 1) start current contour pool = .error .indexError) ∧
    (∀ nxt rest, pool.filter (fun e => e.1 == current.2) = nxt :: rest →
      innerLoop (fuel + 1) start current contour pool =
        innerLoop fuel start nxt (updContour contour current nxt)
          (pool.erase nxt)) := by
  constructor
  · intro h
    simp [innerLoop, hne, h]
  · intro nxt rest h
    simp [innerLoop, hne, h]

/-- Witness for the amended C3: the no-candidate branch reports the error. -/
theorem C3_witness :
    ((((0 : Int), (0 : Int)), ((0 : Int), (1 : Int))).2 ≠
      (((0 : Int), (0 : Int)), ((0 : Int), (1 : Int))).1) ∧
    (([] : List Edge).filter
      (fun e => e.1 == (((0 : Int), (0 : Int)), ((0 : Int), (1 : Int))).2) = []) ∧
    innerLoop 1 (((0 : Int), (0 : Int)), ((0 : Int), (1 : Int)))
      (((0 : Int), (0 : Int)), ((0 : Int), (1 : Int)))
      [((0 : Int), (0 : Int)), ((0 : Int), (1 : Int))] [] =
      .error .indexError :=
  ⟨by decide, rfl,
    (C3_innerLoop_step 0 (((0 : Int), (0 : Int)), ((0 : Int), (1 : Int)))
      (((0 : Int), (0 : Int)), ((0 : Int), (1 : Int)))
      [((0 : Int), (0 : Int)), ((0 : Int), (1 : Int))] [] (by decide)).1 rfl⟩

/-- Claim C5: vectorizing a grid whose filled region is a 3x3 block with the
centre cell empty produces exactly two contours - the outer square boundary
and the inner boundary of the hole - each a closed axis-aligned polygon,
sharing no segment in either direction; moreover under the even-odd rule the
ring cell `(0, 0)` is enclosed and the hole cell `(1, 1)` is not. -/
theorem C5_hole :
    vectorizeGlyph [0, 0, 0, 0, 0, 224, 160, 224] 1 0 =
      .ok [[((0 : Int), (0 : Int)), ((0 : Int), (3 : Int)),
            ((3 : Int), (3 : Int)), ((3 : Int), (0 : Int))],
           [((1 : Int), (1 : Int)), ((2 : Int), (1 : Int)),
            ((2 : Int), (2 : Int)), ((1 : Int), (2 : Int))]] ∧
    segsDisjoint [((0 : Int), (0 : Int)), ((0 : Int), (3 : Int)),
            ((3 : Int), (3 : Int)), ((3 : Int), (0 : Int))]
        [((1 : Int), (1 : Int)), ((2 : Int), (1 : Int)),
            ((2 : Int), (2 : Int)), ((1 : Int), (2 : Int))] = true ∧
    segsAxis [((0 : Int), (0 : Int)), ((0 : Int), (3 : Int)),
            ((3 : Int), (3 : Int)), ((3 : Int), (0 : Int))] = true ∧
    segsAxis [((1 : Int), (1 : Int)), ((2 : Int), (1 : Int)),
            ((2 : Int), (2 : Int)), ((1 : Int), (2 : Int))] = true ∧
    cellEO [[((0 : Int), (0 : Int)), ((0 : Int), (3 : Int)),
            ((3 : Int), (3 : Int)), ((3 : Int), (0 : Int))],
           [((1 : Int), (1 : Int)), ((2 : Int), (1 : Int)),
            ((2 : Int), (2 : Int)), ((1 : Int), (2 : Int))]] 0 0 ∧
    ¬ cellEO [[((0 : Int), (0 : Int)), ((0 : Int), (3 : Int)),
            ((3 : Int), (3 : Int)), ((3 : Int), (0 : Int))],
           [((1 : Int), (1 : Int)), ((2 : Int), (1 : Int)),
            ((2 : Int), (2 : Int)), ((1 : Int), (2 : Int))]] 1 1 := by
  refine ⟨rfl, rfl, rfl, rfl, ?_, ?_⟩ <;> · unfold cellEO; decide

end C64

namespace C64

lemma innerLoop_succ (n : Nat) (start current : Edge) (contour : List Point)
    (pool : List Edge) :
    innerLoop (n + 1) start current contour pool =
      if current.2 = start.1 then .ok (contour, pool)
      else
        match (pool.filter (fun e => e.1 == current.2)).head? with
        | none => .error .indexError
        | some nxt =>
            innerLoop n start nxt (updContour contour current nxt)
              (pool.erase nxt) := rfl

lemma outerLoop_succ (n : Nat) (pool : List Edge) (acc : List Contour) :
    outerLoop (n + 1) pool acc =
      if pool.length ≤ 1 then .ok acc
      else
        match pool with
        | [] => .ok acc
        | start :: rest =>
            match innerLoop (rest.length + 1) start start [start.1, start.2]
                rest with
            | .error e => .error e
            | .ok (contour, edgeList') =>
                outerLoop n edgeList' (acc ++ [contour.dropLast]) := rfl

lemma innerLoop_ne_fuel : ∀ (fuel : Nat) (start current : Edge)
    (contour : List Point) (pool : List Edge), pool.length < fuel →
    innerLoop fuel start current contour pool ≠ .error .outOfFuel := by
  intro fuel
  induction fuel with
  | zero => intro _ _ _ pool h; omega
  | succ n ih =>
    intro start current contour pool h
    rw [innerLoop_succ]
    by_cases hcs : current.2 = start.1
    · simp [hcs]
    · rcases hf : (pool.filter (fun e => e.1 == current.2)).head? with _ | nxt
      · simp [hcs, hf]
      · have hmem : nxt ∈ pool := by
          have h1 : nxt ∈ pool.filter (fun e => e.1 == current.2) :=
            List.mem_of_mem_head? (by rw [hf]; exact rfl)
          exact (List.mem_filter.mp h1).1
        have hlen : (pool.erase nxt).length < n := by
          rw [List.length_erase_of_mem hmem]
          have : 1 ≤ pool.length := List.length_pos.mpr (List.ne_nil_of_mem hmem)
          omega
        simpa [hcs, hf] using ih start nxt (updContour contour current nxt)
          (pool.erase nxt) hlen

lemma innerLoop_sublist : ∀ (fuel : Nat) (start current : Edge)
    (contour : List Point) (pool : List Edge) (c : List Point)
    (pool' : List Edge),
    innerLoop fuel start current contour pool = .ok (c, pool') →
    pool'.Sublist pool := by
  intro fuel
  induction fuel with
  | zero => intro _ _ _ _ _ _ h; simp [innerLoop] at h
  | succ n ih =>
    intro start current contour pool c pool' h
    rw [innerLoop_succ] at h
    by_cases hcs : current.2 = start.1
    · simp only [hcs, if_pos, Except.ok.injEq, Prod.mk.injEq] at h
      rw [← h.2]
    · rw [if_neg hcs] at h
      rcases hf : (pool.filter (fun e => e.1 == current.2)).head? with _ | nxt
      · rw [hf] at h; simp at h
      · rw [hf] at h
        exact (ih start nxt _ _ c pool' h).trans (List.erase_sublist _ _)

lemma outerLoop_ne_fuel : ∀ (fuel : Nat) (pool : List Edge)
    (acc : List Contour), pool.length < fuel →
    outerLoop fuel pool acc ≠ .error .outOfFuel := by
  intro fuel
  induction fuel with
  | zero => intro pool _ h; omega
  | succ n ih =>
    intro pool acc h
    rw [outerLoop_succ]
    by_cases hlen : pool.length ≤ 1
    · simp [hlen]
    · rw [if_neg hlen]
      rcases pool with _ | ⟨start, rest⟩
      · simp
      · rcases hi : innerLoop (rest.length + 1) start start
            [start.1, start.2] rest with e | ⟨contour, pool'⟩
        · simp only [hi]
          intro hcon
          injection hcon with h1
          subst h1
          exact innerLoop_ne_fuel _ start start _ rest (by omega) hi
        · simp only [hi]
          have hsub := innerLoop_sublist _ start start _ rest _ _ hi
          have : pool'.length < n := by
            have := hsub.length_le
            simp only [List.length_cons] at h
            omega
          exact ih pool' _ this

lemma insertEdge_length (e : Edge) (l : List Edge) :
    (insertEdge e l).length = l.length + 1 := by
  induction l with
  | nil => rfl
  | cons f fs ih =>
    rw [insertEdge]
    split <;> simp [ih]

lemma pySorted_length (l : List Edge) : (pySorted l).length = l.length := by
  induction l with
  | nil => rfl
  | cons e es ih => simp [pySorted, List.foldr_cons, insertEdge_length] at *; omega

lemma pySorted_perm (l : List Edge) : (pySorted l).Perm l := by
  induction l with
  | nil => exact List.Perm.refl _
  | cons e es ih =>
    have step : ∀ (f : Edge) (m : List Edge), (insertEdge f m).Perm (f :: m) := by
      intro f m
      induction m with
      | nil => exact List.Perm.refl _
      | cons g gs ihm =>
        rw [insertEdge]
        split
        · exact List.Perm.refl _
        · exact (List.Perm.cons g ihm).trans (List.Perm.swap f g gs)
    exact (step e (pySorted es)).trans (List.Perm.cons e ih)

lemma mergeContours_ne_fuel (edges : List Edge) :
    mergeContours edges ≠ .error .outOfFuel := by
  rw [mergeContours]
  exact outerLoop_ne_fuel _ _ _ (by rw [pySorted_length]; omega)

end C64

namespace C64

lemma flatMap_length_le {α β : Type} (l : List α) (f : α → List β) (k : Nat)
    (h : ∀ a ∈ l, (f a).length ≤ k) : (l.flatMap f).length ≤ k * l.length := by
  induction l with
  | nil => simp
  | cons a as ih =>
    simp only [List.flatMap_cons, List.length_append, List.length_cons]
    have h1 := h a (List.mem_cons_self _ _)
    have h2 := ih (fun b hb => h b (List.mem_cons_of_mem _ hb))
    have : k * (as.length + 1) = k + k * as.length := by ring
    omega

lemma cellEdges_length_le (bm : List (List Bool)) (w h x y : Nat) :
    (cellEdges bm w h x y).length ≤ 4 := by
  rw [cellEdges]
  split_ifs <;> simp

lemma unpackChar_row_len (g : List Nat) :
    ∀ r ∈ unpackChar g, r.length = 8 := by
  intro r hr
  rcases List.mem_map.mp hr with ⟨row, _, hrow⟩
  simp [← hrow]

lemma generateEdges_length_le (bm : List (List Bool)) :
    (generateEdges bm).length ≤ 4 * (bm.headD []).length * bm.length := by
  rw [generateEdges]
  refine (flatMap_length_le _ _ (4 * (bm.headD []).length) ?_).trans ?_
  · intro y _
    refine (flatMap_length_le _ _ 4 ?_).trans ?_
    · intro x _
      split
      · exact cellEdges_length_le _ _ _ _ _
      · simp
    · simp [Nat.mul_comm]
  · simp [Nat.mul_comm]

/-- Claim C8: `vectorizeGlyph` terminates on every input (the stitching
loops never exhaust their fuel, because every inner iteration removes one
edge from the pool), and the edge pool is bounded by 4 edges per cell:
at most `32 * rows` edges, hence at most 256 for an 8-row glyph. -/
theorem C8_vectorizeGlyph_terminates (g : List Nat) (s d : Int) :
    vectorizeGlyph g s d ≠ .error .outOfFuel ∧
    (generateEdges (unpackChar g)).length ≤ 32 * g.length ∧
    (g.length = 8 → (generateEdges (unpackChar g)).length ≤ 256) := by
  have hw : ((unpackChar g).headD []).length ≤ 8 := by
    rcases hu : unpackChar g with _ | ⟨r, rs⟩
    · simp
    · have : r ∈ unpackChar g := by rw [hu]; exact List.mem_cons_self _ _
      simp [unpackChar_row_len g r this]
  have hlen : (generateEdges (unpackChar g)).length ≤ 32 * g.length := by
    refine (generateEdges_length_le _).trans ?_
    have h1 : (unpackChar g).length = g.length := by simp [unpackChar]
    rw [h1]
    have : 4 * ((unpackChar g).headD []).length ≤ 32 := by omega
    exact Nat.mul_le_mul_right _ this
  refine ⟨?_, hlen, fun h8 => by omega⟩
  rw [vectorizeGlyph]
  split
  · simp
  · exact mergeContours_ne_fuel _

/-- Witness for C8 on the fully filled 8-row glyph. -/
theorem C8_witness : (List.replicate 8 255).length = 8 ∧
    (vectorizeGlyph (List.replicate 8 255) 1 0 ≠ .error .outOfFuel ∧
     (generateEdges (unpackChar (List.replicate 8 255))).length ≤ 256) :=
  ⟨by decide, (C8_vectorizeGlyph_terminates (List.replicate 8 255) 1 0).1,
    (C8_vectorizeGlyph_terminates (List.replicate 8 255) 1 0).2.2 (by decide)⟩

end C64

namespace C64

lemma scaleEdges_eq_map (edges : List Edge) (s d : Int) :
    scaleEdges edges s d = edges.map (scaleE s d) := rfl

lemma int_beq_decide (a b : Int) : (a == b) = decide (a = b) := rfl

lemma scalePoint_inj {s : Int} (d : Int) (hs : s ≠ 0) {p q : Point}
    (h : scalePoint s d p = scalePoint s d q) : p = q := by
  rcases p with ⟨px, py⟩
  rcases q with ⟨qx, qy⟩
  simp only [scalePoint, Prod.mk.injEq] at h
  have h1 : px = qx := (mul_left_inj' hs).mp h.1
  have h2 : py - d = qy - d := (mul_left_inj' hs).mp h.2
  simp only [Prod.mk.injEq]
  omega

lemma scaleE_inj {s : Int} (d : Int) (hs : s ≠ 0) {e f : Edge}
    (h : scaleE s d e = scaleE s d f) : e = f := by
  rcases e with ⟨e1, e2⟩
  rcases f with ⟨f1, f2⟩
  simp only [scaleE, Prod.mk.injEq] at h
  exact Prod.ext (scalePoint_inj d hs h.1) (scalePoint_inj d hs h.2)

lemma beq_scalePoint (s d : Int) (hs : s ≠ 0) (p q : Point) :
    (scalePoint s d p == scalePoint s d q) = (p == q) := by
  by_cases h : p = q
  · subst h; simp
  · have h2 : scalePoint s d p ≠ scalePoint s d q := fun hc => h (scalePoint_inj d hs hc)
    simp [h, h2]

lemma beq_scaleE (s d : Int) (hs : s ≠ 0) (e f : Edge) :
    (scaleE s d e == scaleE s d f) = (e == f) := by
  by_cases h : e = f
  · subst h; simp
  · have h2 : scaleE s d e ≠ scaleE s d f := fun hc => h (scaleE_inj d hs hc)
    simp [h, h2]

lemma edgeLe_scale (s d : Int) (hs : 0 < s) (e f : Edge) :
    edgeLe (scaleE s d e) (scaleE s d f) = edgeLe e f := by
  simp only [edgeLe, scaleE, scalePoint, int_beq_decide,
    mul_lt_mul_right hs, mul_le_mul_right hs, mul_left_inj' hs.ne',
    sub_lt_sub_iff_right, sub_le_sub_iff_right, sub_left_inj]

lemma insertEdge_scale (s d : Int) (hs : 0 < s) (e : Edge) (l : List Edge) :
    insertEdge (scaleE s d e) (l.map (scaleE s d)) =
      (insertEdge e l).map (scaleE s d) := by
  induction l with
  | nil => rfl
  | cons f fs ih =>
    simp only [List.map_cons, insertEdge, edgeLe_scale s d hs]
    split
    · simp
    · simp [ih]

lemma pySorted_scale (s d : Int) (hs : 0 < s) (l : List Edge) :
    pySorted (l.map (scaleE s d)) = (pySorted l).map (scaleE s d) := by
  induction l with
  | nil => rfl
  | cons e es ih =>
    simp only [List.map_cons, pySorted, List.foldr_cons]
    rw [show List.foldr insertEdge [] (es.map (scaleE s d)) =
      pySorted (es.map (scaleE s d)) from rfl, ih]
    exact insertEdge_scale s d hs e (pySorted es)

lemma filter_scale (s d : Int) (hs : s ≠ 0) (c2 : Point) (l : List Edge) :
    (l.map (scaleE s d)).filter (fun e => e.1 == scalePoint s d c2) =
      (l.filter (fun e => e.1 == c2)).map (scaleE s d) := by
  induction l with
  | nil => rfl
  | cons f fs ih =>
    simp only [List.map_cons, List.filter_cons]
    have hc : ((scaleE s d f).1 == scalePoint s d c2) = (f.1 == c2) :=
      beq_scalePoint s d hs f.1 c2
    rw [hc]
    split
    · simp [ih]
    · exact ih

lemma erase_scale (s d : Int) (hs : s ≠ 0) (a : Edge) (l : List Edge) :
    (l.map (scaleE s d)).erase (scaleE s d a) =
      (l.erase a).map (scaleE s d) := by
  induction l with
  | nil => rfl
  | cons f fs ih =>
    simp only [List.map_cons, List.erase_cons, beq_scaleE s d hs]
    split
    · rfl
    · simp [ih]

lemma setLast_scale (s d : Int) (k : List Point) (p : Point) :
    setLast (k.map (scalePoint s d)) (scalePoint s d p) =
      (setLast k p).map (scalePoint s d) := by
  simp [setLast, List.map_dropLast]

lemma updContour_scale (s d : Int) (hs : s ≠ 0) (k : List Point)
    (cur nxt : Edge) :
    updContour (k.map (scalePoint s d)) (scaleE s d cur) (scaleE s d nxt) =
      (updContour k cur nxt).map (scalePoint s d) := by
  have hx : (scaleE s d nxt).2.1 = (scaleE s d cur).1.1 ↔ nxt.2.1 = cur.1.1 := by
    simp only [scaleE, scalePoint]
    exact mul_left_inj' hs
  have hy : (scaleE s d nxt).2.2 = (scaleE s d cur).1.2 ↔ nxt.2.2 = cur.1.2 := by
    simp only [scaleE, scalePoint]
    constructor
    · intro h; have := (mul_left_inj' hs).mp h; omega
    · intro h; rw [h]
  rw [updContour, updContour]
  by_cases hcond : nxt.2.1 = cur.1.1 ∨ nxt.2.2 = cur.1.2
  · rw [if_pos (by rw [hx, hy]; exact hcond), if_pos hcond]
    exact setLast_scale s d k nxt.2
  · rw [if_neg (by rw [hx, hy]; exact hcond), if_neg hcond]
    simp [scaleE]

lemma innerLoop_scale (s d : Int) (hs : s ≠ 0) : ∀ (fuel : Nat)
    (start current : Edge) (contour : List Point) (pool : List Edge),
    innerLoop fuel (scaleE s d start) (scaleE s d current)
      (contour.map (scalePoint s d)) (pool.map (scaleE s d)) =
    (innerLoop fuel start current contour pool).map
      (fun r => (r.1.map (scalePoint s d), r.2.map (scaleE s d))) := by
  intro fuel
  induction fuel with
  | zero => intro _ _ _ _; rfl
  | succ n ih =>
    intro start current contour pool
    rw [innerLoop_succ, innerLoop_succ]
    by_cases h : current.2 = start.1
    · rw [if_pos (show (scaleE s d current).2 = (scaleE s d start).1 by
        show scalePoint s d current.2 = scalePoint s d start.1; rw [h]), if_pos h]
      rfl
    · have h2 : (scaleE s d current).2 ≠ (scaleE s d start).1 := by
        intro hc
        exact h (scalePoint_inj d hs hc)
      rw [if_neg h2, if_neg h]
      have hscrut : ((pool.map (scaleE s d)).filter
          (fun e => e.1 == (scaleE s d current).2)).head? =
          ((pool.filter (fun e => e.1 == current.2)).head?).map (scaleE s d) := by
        rw [show (scaleE s d current).2 = scalePoint s d current.2 from rfl,
          filter_scale s d hs, List.head?_map]
      rcases hf : (pool.filter (fun e => e.1 == current.2)).head? with _ | nxt
      · rw [hf] at hscrut
        simp only [Option.map_none'] at hscrut
        rw [hscrut, hf]
        rfl
      · rw [hf] at hscrut
        simp only [Option.map_some'] at hscrut
        rw [hscrut, hf]
        show innerLoop n (scaleE s d start) (scaleE s d nxt)
            (updContour (contour.map (scalePoint s d)) (scaleE s d current)
              (scaleE s d nxt))
            ((pool.map (scaleE s d)).erase (scaleE s d nxt)) = _
        rw [updContour_scale s d hs, erase_scale s d hs]
        exact ih start nxt (updContour contour current nxt) (pool.erase nxt)

lemma outerLoop_scale (s d : Int) (hs : s ≠ 0) : ∀ (fuel : Nat)
    (pool : List Edge) (acc : List Contour),
    outerLoop fuel (pool.map (scaleE s d)) (acc.map (List.map (scalePoint s d))) =
    (outerLoop fuel pool acc).map (List.map (List.map (scalePoint s d))) := by
  intro fuel
  induction fuel with
  | zero => intro _ _; rfl
  | succ n ih =>
    intro pool acc
    rw [outerLoop_succ, outerLoop_succ]
    by_cases hlen : pool.length ≤ 1
    · rw [if_pos (by simpa using hlen), if_pos hlen]
      rfl
    · rw [if_neg (by simpa using hlen), if_neg hlen]
      rcases pool with _ | ⟨start, rest⟩
      · rfl
      · simp only [List.map_cons]
        have hinner : innerLoop ((rest.map (scaleE s d)).length + 1)
            (scaleE s d start) (scaleE s d start)
            [(scaleE s d start).1, (scaleE s d start).2] (rest.map (scaleE s d)) =
            (innerLoop (rest.length + 1) start start [start.1, start.2] rest).map
              (fun r => (r.1.map (scalePoint s d), r.2.map (scaleE s d))) := by
          rw [List.length_map]
          exact innerLoop_scale s d hs (rest.length + 1) start start
            [start.1, start.2] rest
        rcases hi : innerLoop (rest.length + 1) start start [start.1, start.2]
            rest with e | ⟨contour, pool'⟩
        · rw [hi] at hinner
          simp only [Except.map] at hinner
          rw [hinner]
          rfl
        · rw [hi] at hinner
          simp only [Except.map] at hinner
          rw [hinner]
          show outerLoop n (pool'.map (scaleE s d))
              (acc.map (List.map (scalePoint s d)) ++
                [(contour.map (scalePoint s d)).dropLast]) = _
          have harg : acc.map (List.map (scalePoint s d)) ++
                [(contour.map (scalePoint s d)).dropLast] =
              (acc ++ [contour.dropLast]).map (List.map (scalePoint s d)) := by
            simp [List.map_dropLast]
          rw [harg]
          exact ih pool' (acc ++ [contour.dropLast])

lemma mergeContours_scale (edges : List Edge) (s d : Int) (hs : 0 < s) :
    mergeContours (scaleEdges edges s d) =
      (mergeContours edges).map (List.map (List.map (scalePoint s d))) := by
  rw [mergeContours, mergeContours, scaleEdges_eq_map, List.length_map,
    pySorted_scale s d hs]
  have := outerLoop_scale s d hs.ne' (edges.length + 1) (pySorted edges) []
  simpa using this

/-- Claim C4: vectorizing a fully-filled 8x8 grid (eight rows of 0xFF)
produces exactly one contour with exactly 4 vertices, for any positive
pixel size and any non-negative descent. -/
theorem C4_full_grid (s d : Int) (hs : 0 < s) (_hd : 0 ≤ d) :
    (vectorizeGlyph (List.replicate 8 255) s d).map
      (fun cs => (cs.length, cs.map List.length)) = .ok (1, [4]) := by
  rw [vectorizeGlyph, if_neg (by decide), mergeContours_scale _ s d hs]
  rw [show mergeContours (generateEdges (unpackChar (List.replicate 8 255))) =
    .ok [[((0 : Int), (0 : Int)), ((0 : Int), (8 : Int)),
          ((8 : Int), (8 : Int)), ((8 : Int), (0 : Int))]] from rfl]
  rfl

/-- Witness for C4 at pixel size 3 and descent 2. -/
theorem C4_witness : (0 : Int) < 3 ∧ (0 : Int) ≤ 2 ∧
    (vectorizeGlyph (List.replicate 8 255) 3 2).map
      (fun cs => (cs.length, cs.map List.length)) = .ok (1, [4]) :=
  ⟨by decide, by decide, C4_full_grid 3 2 (by decide) (by decide)⟩

end C64

namespace C64

lemma cellFilled_ofNat (bm : List (List Bool)) (x y : Nat) :
    cellFilled bm (x : Int) (y : Int) =
      (decide (x < (bm.headD []).length) && decide (y < bm.length) &&
        getCell bm y x) := by
  simp [cellFilled]

lemma dec_true {p : Prop} [Decidable p] (h : p) : decide p = true :=
  decide_eq_true h

lemma dec_false {p : Prop} [Decidable p] (h : ¬p) : decide p = false :=
  decide_eq_false h

lemma cellFilled_neg_left (bm : List (List Bool)) {cx : Int} (cy : Int)
    (h : cx < 0) : cellFilled bm cx cy = false := by
  simp only [cellFilled, dec_false (by omega : ¬(0 : Int) ≤ cx),
    Bool.false_and, Bool.and_false]

lemma cellFilled_neg_bot (bm : List (List Bool)) (cx : Int) {cy : Int}
    (h : cy < 0) : cellFilled bm cx cy = false := by
  simp only [cellFilled, dec_false (by omega : ¬(0 : Int) ≤ cy),
    Bool.false_and, Bool.and_false]

lemma cellFilled_big_x (bm : List (List Bool)) {cx : Int} (cy : Int)
    (h : ((bm.headD []).length : Int) ≤ cx) : cellFilled bm cx cy = false := by
  simp only [cellFilled,
    dec_false (by omega : ¬cx < ((bm.headD []).length : Int)),
    Bool.false_and, Bool.and_false]

lemma cellFilled_big_y (bm : List (List Bool)) (cx : Int) {cy : Int}
    (h : (bm.length : Int) ≤ cy) : cellFilled bm cx cy = false := by
  simp only [cellFilled, dec_false (by omega : ¬cy < (bm.length : Int)),
    Bool.false_and, Bool.and_false]

lemma guard_left (bm : List (List Bool)) (x y : Nat)
    (hx : x < (bm.headD []).length) (hy : y < bm.length) :
    (x = 0 ∨ getCell bm y (x - 1) = false) ↔
      cellFilled bm ((x : Int) - 1) (y : Int) = false := by
  rcases Nat.eq_zero_or_pos x with hx0 | hx0
  · subst hx0
    rw [cellFilled_neg_left bm (y : Int) (by norm_num : ((0 : Nat) : Int) - 1 < 0)]
    simp
  · have hcast : ((x : Int) - 1) = ((x - 1 : Nat) : Int) := by omega
    rw [hcast, cellFilled_ofNat, dec_true (by omega : x - 1 < (bm.headD []).length),
      dec_true hy]
    simp only [Bool.true_and]
    constructor
    · rintro (h | h)
      · omega
      · simp [h]
    · intro h
      right
      simpa using h

lemma guard_top (bm : List (List Bool)) (x y : Nat)
    (hx : x < (bm.headD []).length) (hy : y < bm.length) :
    (y = bm.length - 1 ∨ getCell bm (y + 1) x = false) ↔
      cellFilled bm (x : Int) ((y : Int) + 1) = false := by
  have hcast : ((y : Int) + 1) = ((y + 1 : Nat) : Int) := by omega
  rw [hcast, cellFilled_ofNat]
  rcases Nat.lt_or_ge (y + 1) bm.length with hlt | hge
  · rw [dec_true hx, dec_true hlt]
    simp only [Bool.true_and]
    constructor
    · rintro (h | h)
      · omega
      · simp [h]
    · intro h
      right
      simpa using h
  · rw [dec_false (by omega : ¬y + 1 < bm.length)]
    simp only [Bool.and_false, Bool.false_and]
    constructor
    · intro _
      trivial
    · intro _
      left
      omega

lemma guard_right (bm : List (List Bool)) (x y : Nat)
    (hx : x < (bm.headD []).length) (hy : y < bm.length) :
    (x = (bm.headD []).length - 1 ∨ getCell bm y (x + 1) = false) ↔
      cellFilled bm ((x : Int) + 1) (y : Int) = false := by
  have hcast : ((x : Int) + 1) = ((x + 1 : Nat) : Int) := by omega
  rw [hcast, cellFilled_ofNat]
  rcases Nat.lt_or_ge (x + 1) (bm.headD []).length with hlt | hge
  · rw [dec_true hlt, dec_true hy]
    simp only [Bool.true_and]
    constructor
    · rintro (h | h)
      · omega
      · simp [h]
    · intro h
      right
      simpa using h
  · rw [dec_false (by omega : ¬x + 1 < (bm.headD []).length)]
    simp only [Bool.and_false, Bool.false_and]
    constructor
    · intro _
      trivial
    · intro _
      left
      omega

lemma guard_bottom (bm : List (List Bool)) (x y : Nat)
    (hx : x < (bm.headD []).length) (hy : y < bm.length) :
    (y = 0 ∨ getCell bm (y - 1) x = false) ↔
      cellFilled bm (x : Int) ((y : Int) - 1) = false := by
  rcases Nat.eq_zero_or_pos y with hy0 | hy0
  · subst hy0
    rw [cellFilled_neg_bot bm (x : Int) (by norm_num : ((0 : Nat) : Int) - 1 < 0)]
    simp
  · have hcast : ((y : Int) - 1) = ((y - 1 : Nat) : Int) := by omega
    rw [hcast, cellFilled_ofNat, dec_true hx,
      dec_true (by omega : y - 1 < bm.length)]
    simp only [Bool.true_and]
    constructor
    · rintro (h | h)
      · omega
      · simp [h]
    · intro h
      right
      simpa using h

end C64

namespace C64

lemma mem_ite_singleton {c : Prop} [Decidable c] {v e : Edge} :
    e ∈ (if c then [v] else ([] : List Edge)) ↔ c ∧ e = v := by
  split_ifs with hc <;> simp [hc]

lemma mem_cellEdges_iff (bm : List (List Bool)) (w h x y : Nat) (e : Edge) :
    e ∈ cellEdges bm w h x y ↔
      ((x = 0 ∨ getCell bm y (x - 1) = false) ∧
        e = (((x : Int), (y : Int)), ((x : Int), (y : Int) + 1))) ∨
      ((y = h - 1 ∨ getCell bm (y + 1) x = false) ∧
        e = (((x : Int), (y : Int) + 1), ((x : Int) + 1, (y : Int) + 1))) ∨
      ((x = w - 1 ∨ getCell bm y (x + 1) = false) ∧
        e = (((x : Int) + 1, (y : Int) + 1), ((x : Int) + 1, (y : Int)))) ∨
      ((y = 0 ∨ getCell bm (y - 1) x = false) ∧
        e = (((x : Int) + 1, (y : Int)), ((x : Int), (y : Int)))) := by
  simp only [cellEdges, List.mem_append, mem_ite_singleton]
  tauto

lemma mem_generateEdges_nat (bm : List (List Bool)) (e : Edge) :
    e ∈ generateEdges bm ↔
      ∃ y x : Nat, y < bm.length ∧ x < (bm.headD []).length ∧
        getCell bm y x = true ∧
        e ∈ cellEdges bm (bm.headD []).length bm.length x y := by
  rw [generateEdges]
  simp only [List.mem_flatMap, List.mem_range]
  constructor
  · rintro ⟨y, hy, x, hx, he⟩
    rcases hg : getCell bm y x with hf | ht
    · rw [hg] at he; simp at he
    · rw [hg] at he
      simp only [if_true] at he
      exact ⟨y, x, hy, hx, hg, he⟩
  · rintro ⟨y, x, hy, hx, hg, he⟩
    exact ⟨y, hy, x, hx, by rw [hg]; simpa using he⟩

lemma cellFilled_nat_true (bm : List (List Bool)) (x y : Nat) :
    cellFilled bm (x : Int) (y : Int) = true ↔
      x < (bm.headD []).length ∧ y < bm.length ∧ getCell bm y x = true := by
  rw [cellFilled_ofNat]
  simp [and_assoc]

lemma cellFilled_true_bounds {bm : List (List Bool)} {cx cy : Int}
    (h : cellFilled bm cx cy = true) :
    0 ≤ cx ∧ cx < ((bm.headD []).length : Int) ∧ 0 ≤ cy ∧
      cy < (bm.length : Int) ∧ getCell bm cy.toNat cx.toNat = true := by
  simp only [cellFilled, Bool.and_eq_true, decide_eq_true_eq] at h
  exact ⟨h.1.1.1.1, h.1.1.1.2, h.1.1.2, h.1.2, h.2⟩

end C64

namespace C64

lemma mem_generateEdges_iff_edgeOK (bm : List (List Bool)) (e : Edge) :
    e ∈ generateEdges bm ↔ edgeOK bm e = true := by
  constructor
  · intro hmem
    rcases (mem_generateEdges_nat bm e).mp hmem with ⟨y, x, hy, hx, hg, hce⟩
    have hfill : cellFilled bm (x : Int) (y : Int) = true :=
      (cellFilled_nat_true bm x y).mpr ⟨hx, hy, hg⟩
    rcases (mem_cellEdges_iff bm _ _ x y e).mp hce with
      ⟨hgd, rfl⟩ | ⟨hgd, rfl⟩ | ⟨hgd, rfl⟩ | ⟨hgd, rfl⟩
    · have hq : ((((x : Int), (y : Int) + 1)) : Point) - (((x : Int), (y : Int))) =
        (((0 : Int), (1 : Int)) : Point) := by
        rw [Prod.mk_sub_mk]
        norm_num
      simp only [edgeOK, hq, if_pos]
      rw [hfill, (guard_left bm x y hx hy).mp hgd]
      rfl
    · have hq : ((((x : Int) + 1, (y : Int) + 1)) : Point) -
        (((x : Int), (y : Int) + 1)) = (((1 : Int), (0 : Int)) : Point) := by
        rw [Prod.mk_sub_mk]
        norm_num
      have hne : (((1 : Int), (0 : Int)) : Point) ≠ ((0 : Int), (1 : Int)) := by
        decide
      simp only [edgeOK, hq, if_neg hne, if_pos]
      have hb : ((y : Int) + 1) - 1 = (y : Int) := by omega
      rw [hb, hfill, (guard_top bm x y hx hy).mp hgd]
      rfl
    · have hq : ((((x : Int) + 1, (y : Int))) : Point) -
        (((x : Int) + 1, (y : Int) + 1)) = (((0 : Int), (-1 : Int)) : Point) := by
        rw [Prod.mk_sub_mk]
        norm_num
      have hne1 : (((0 : Int), (-1 : Int)) : Point) ≠ ((0 : Int), (1 : Int)) := by
        decide
      have hne2 : (((0 : Int), (-1 : Int)) : Point) ≠ ((1 : Int), (0 : Int)) := by
        decide
      simp only [edgeOK, hq, if_neg hne1, if_neg hne2, if_pos]
      have hb : ((x : Int) + 1) - 1 = (x : Int) := by omega
      rw [hb, hfill, (guard_right bm x y hx hy).mp hgd]
      rfl
    · have hq : ((((x : Int), (y : Int))) : Point) -
        (((x : Int) + 1, (y : Int))) = (((-1 : Int), (0 : Int)) : Point) := by
        rw [Prod.mk_sub_mk]
        norm_num
      have hne1 : (((-1 : Int), (0 : Int)) : Point) ≠ ((0 : Int), (1 : Int)) := by
        decide
      have hne2 : (((-1 : Int), (0 : Int)) : Point) ≠ ((1 : Int), (0 : Int)) := by
        decide
      have hne3 : (((-1 : Int), (0 : Int)) : Point) ≠ ((0 : Int), (-1 : Int)) := by
        decide
      simp only [edgeOK, hq, if_neg hne1, if_neg hne2, if_neg hne3, if_pos]
      rw [hfill, (guard_bottom bm x y hx hy).mp hgd]
      rfl
  · intro hok
    rcases e with ⟨⟨a, b⟩, ⟨c, d⟩⟩
    have hq : ((c, d) : Point) - ((a, b) : Point) = (c - a, d - b) :=
      Prod.mk_sub_mk c a d b
    simp only [edgeOK, hq] at hok
    split_ifs at hok with hq1 hq2 hq3 hq4
    · simp only [Prod.mk.injEq] at hq1
      simp only [Bool.and_eq_true, Bool.not_eq_true'] at hok
      obtain ⟨h1, h2⟩ := hok
      obtain ⟨ha0, haw, hb0, hbh, hgc⟩ := cellFilled_true_bounds h1
      have hax : ((a.toNat : Nat) : Int) = a := Int.toNat_of_nonneg ha0
      have hby : ((b.toNat : Nat) : Int) = b := Int.toNat_of_nonneg hb0
      refine (mem_generateEdges_nat bm _).mpr
        ⟨b.toNat, a.toNat, by omega, by omega, hgc, ?_⟩
      refine (mem_cellEdges_iff bm _ _ a.toNat b.toNat _).mpr (Or.inl ⟨?_, ?_⟩)
      · refine (guard_left bm a.toNat b.toNat (by omega) (by omega)).mpr ?_
        rw [hax, hby]
        exact h2
      · rw [hax, hby]
        simp only [Prod.mk.injEq, eq_self_iff_true, true_and, and_true]
        omega
    · simp only [Prod.mk.injEq] at hq2
      simp only [Bool.and_eq_true, Bool.not_eq_true'] at hok
      obtain ⟨h1, h2⟩ := hok
      obtain ⟨ha0, haw, hb0, hbh, hgc⟩ := cellFilled_true_bounds h1
      have hax : ((a.toNat : Nat) : Int) = a := Int.toNat_of_nonneg ha0
      have hby : (((b - 1).toNat : Nat) : Int) = b - 1 :=
        Int.toNat_of_nonneg hb0
      refine (mem_generateEdges_nat bm _).mpr
        ⟨(b - 1).toNat, a.toNat, by omega, by omega, hgc, ?_⟩
      refine (mem_cellEdges_iff bm _ _ a.toNat (b - 1).toNat _).mpr
        (Or.inr (Or.inl ⟨?_, ?_⟩))
      · refine (guard_top bm a.toNat (b - 1).toNat (by omega) (by omega)).mpr ?_
        rw [hax, hby]
        have hb1 : b - 1 + 1 = b := by omega
        rw [hb1]
        exact h2
      · rw [hax, hby]
        simp only [Prod.mk.injEq, eq_self_iff_true, true_and, and_true]
        omega
    · simp only [Prod.mk.injEq] at hq3
      simp only [Bool.and_eq_true, Bool.not_eq_true'] at hok
      obtain ⟨h1, h2⟩ := hok
      obtain ⟨ha0, haw, hb0, hbh, hgc⟩ := cellFilled_true_bounds h1
      have hax : (((a - 1).toNat : Nat) : Int) = a - 1 :=
        Int.toNat_of_nonneg ha0
      have hby : ((d.toNat : Nat) : Int) = d := Int.toNat_of_nonneg hb0
      refine (mem_generateEdges_nat bm _).mpr
        ⟨d.toNat, (a - 1).toNat, by omega, by omega, hgc, ?_⟩
      refine (mem_cellEdges_iff bm _ _ (a - 1).toNat d.toNat _).mpr
        (Or.inr (Or.inr (Or.inl ⟨?_, ?_⟩)))
      · refine (guard_right bm (a - 1).toNat d.toNat (by omega) (by omega)).mpr ?_
        rw [hax, hby]
        have ha1 : a - 1 + 1 = a := by omega
        rw [ha1]
        exact h2
      · rw [hax, hby]
        simp only [Prod.mk.injEq, eq_self_iff_true, true_and, and_true]
        omega
    · simp only [Prod.mk.injEq] at hq4
      simp only [Bool.and_eq_true, Bool.not_eq_true'] at hok
      obtain ⟨h1, h2⟩ := hok
      obtain ⟨ha0, haw, hb0, hbh, hgc⟩ := cellFilled_true_bounds h1
      have hax : ((c.toNat : Nat) : Int) = c := Int.toNat_of_nonneg ha0
      have hby : ((d.toNat : Nat) : Int) = d := Int.toNat_of_nonneg hb0
      refine (mem_generateEdges_nat bm _).mpr
        ⟨d.toNat, c.toNat, by omega, by omega, hgc, ?_⟩
      refine (mem_cellEdges_iff bm _ _ c.toNat d.toNat _).mpr
        (Or.inr (Or.inr (Or.inr ⟨?_, ?_⟩)))
      · refine (guard_bottom bm c.toNat d.toNat (by omega) (by omega)).mpr ?_
        rw [hax, hby]
        exact h2
      · rw [hax, hby]
        simp only [Prod.mk.injEq, eq_self_iff_true, true_and, and_true]
        omega

end C64

namespace C64

lemma cellOf_cellEdges (bm : List (List Bool)) (w h x y : Nat) (e : Edge)
    (he : e ∈ cellEdges bm w h x y) : cellOf e = ((x : Int), (y : Int)) := by
  rcases (mem_cellEdges_iff bm w h x y e).mp he with
    ⟨_, rfl⟩ | ⟨_, rfl⟩ | ⟨_, rfl⟩ | ⟨_, rfl⟩
  · have hq : ((((x : Int), (y : Int) + 1)) : Point) - ((x : Int), (y : Int)) =
      ((0 : Int), (1 : Int)) := by rw [Prod.mk_sub_mk]; norm_num
    simp only [cellOf, hq, if_pos]
  · have hq : ((((x : Int) + 1, (y : Int) + 1)) : Point) -
      ((x : Int), (y : Int) + 1) = ((1 : Int), (0 : Int)) := by
      rw [Prod.mk_sub_mk]; norm_num
    simp only [cellOf, hq]
    norm_num
  · have hq : ((((x : Int) + 1, (y : Int))) : Point) -
      ((x : Int) + 1, (y : Int) + 1) = ((0 : Int), (-1 : Int)) := by
      rw [Prod.mk_sub_mk]; norm_num
    simp only [cellOf, hq]
    norm_num
  · have hq : ((((x : Int), (y : Int))) : Point) -
      ((x : Int) + 1, (y : Int)) = ((-1 : Int), (0 : Int)) := by
      rw [Prod.mk_sub_mk]; norm_num
    simp only [cellOf, hq]
    norm_num

lemma cellEdges_nodup (bm : List (List Bool)) (w h x y : Nat) :
    (cellEdges bm w h x y).Nodup := by
  rw [cellEdges]
  split_ifs <;>
    simp_all [List.nodup_cons, List.nodup_append, List.mem_append,
      Prod.ext_iff] <;>
    omega

lemma generateEdges_nodup (bm : List (List Bool)) :
    (generateEdges bm).Nodup := by
  rw [generateEdges]
  rw [List.nodup_bind]
  constructor
  · intro y _
    rw [List.nodup_bind]
    constructor
    · intro x _
      split
      · exact cellEdges_nodup _ _ _ _ _
      · exact List.nodup_nil
    · refine List.Pairwise.imp ?_ (List.pairwise_lt_range _)
      intro x x' hxx e he he'
      have h1 : e ∈ cellEdges bm (bm.headD []).length bm.length x y := by
        by_cases hg : getCell bm y x = true
        · simpa [hg] using he
        · simp [hg] at he
      have h2 : e ∈ cellEdges bm (bm.headD []).length bm.length x' y := by
        by_cases hg : getCell bm y x' = true
        · simpa [hg] using he'
        · simp [hg] at he'
      have e1 := cellOf_cellEdges bm _ _ x y e h1
      have e2 := cellOf_cellEdges bm _ _ x' y e h2
      rw [e1] at e2
      simp only [Prod.mk.injEq] at e2
      omega
  · refine List.Pairwise.imp ?_ (List.pairwise_lt_range _)
    intro y y' hyy e he he'
    simp only [List.mem_bind] at he he'
    rcases he with ⟨x, _, he⟩
    rcases he' with ⟨x', _, he'⟩
    have h1 : e ∈ cellEdges bm (bm.headD []).length bm.length x y := by
      by_cases hg : getCell bm y x = true
      · simpa [hg] using he
      · simp [hg] at he
    have h2 : e ∈ cellEdges bm (bm.headD []).length bm.length x' y' := by
      by_cases hg : getCell bm y' x' = true
      · simpa [hg] using he'
      · simp [hg] at he'
    have e1 := cellOf_cellEdges bm _ _ x y e h1
    have e2 := cellOf_cellEdges bm _ _ x' y' e h2
    rw [e1] at e2
    simp only [Prod.mk.injEq] at e2
    omega

end C64

namespace C64

lemma edgeOK_unit {bm : List (List Bool)} {e : Edge}
    (h : edgeOK bm e = true) : IsUnit e := by
  rcases e with ⟨⟨a, b⟩, ⟨c, d⟩⟩
  have hq : ((c, d) : Point) - ((a, b) : Point) = (c - a, d - b) :=
    Prod.mk_sub_mk c a d b
  simp only [edgeOK, hq] at h
  rw [IsUnit, hq]
  split_ifs at h with h1 h2 h3 h4 <;> simp_all [unitVecs]

lemma edgeOK_nonneg_x {bm : List (List Bool)} {e : Edge}
    (h : edgeOK bm e = true) : 0 ≤ e.1.1 := by
  rcases e with ⟨⟨a, b⟩, ⟨c, d⟩⟩
  have hq : ((c, d) : Point) - ((a, b) : Point) = (c - a, d - b) :=
    Prod.mk_sub_mk c a d b
  simp only [edgeOK, hq] at h
  split_ifs at h with h1 h2 h3 h4
  · simp only [Bool.and_eq_true, Bool.not_eq_true'] at h
    have := (cellFilled_true_bounds h.1).1
    simpa using this
  · simp only [Bool.and_eq_true, Bool.not_eq_true'] at h
    have := (cellFilled_true_bounds h.1).1
    simpa using this
  · simp only [Bool.and_eq_true, Bool.not_eq_true'] at h
    have := (cellFilled_true_bounds h.1).1
    simp only
    omega
  · simp only [Bool.and_eq_true, Bool.not_eq_true'] at h
    simp only [Prod.mk.injEq] at h4
    have := (cellFilled_true_bounds h.1).1
    simp only
    omega

lemma edgeOK_norev {bm : List (List Bool)} {e : Edge}
    (h1 : edgeOK bm e = true) (h2 : edgeOK bm (e.2, e.1) = true) : False := by
  rcases e with ⟨⟨a, b⟩, ⟨c, d⟩⟩
  have hq : ((c, d) : Point) - ((a, b) : Point) = (c - a, d - b) :=
    Prod.mk_sub_mk c a d b
  have hq' : ((a, b) : Point) - ((c, d) : Point) = (a - c, b - d) :=
    Prod.mk_sub_mk a c b d
  simp only [edgeOK, hq] at h1
  simp only [edgeOK] at h2
  rw [hq'] at h2
  split_ifs at h1 with p1 p2 p3 p4
  · simp only [Prod.mk.injEq] at p1
    simp only [Bool.and_eq_true, Bool.not_eq_true'] at h1
    have hc : c = a := by omega
    have hd : d = b + 1 := by omega
    subst hc
    subst hd
    split_ifs at h2 with r1 r2 r3 r4
    · simp only [Prod.mk.injEq] at r1
      omega
    · simp only [Prod.mk.injEq] at r2
      omega
    · simp only [Bool.and_eq_true, Bool.not_eq_true'] at h2
      exact absurd h1.1 (by simp [h2.2])
    · simp only [Prod.mk.injEq] at r4
      omega
  · simp only [Prod.mk.injEq] at p2
    simp only [Bool.and_eq_true, Bool.not_eq_true'] at h1
    have hc : c = a + 1 := by omega
    have hd : d = b := by omega
    subst hc
    subst hd
    split_ifs at h2 with r1 r2 r3 r4
    · simp only [Prod.mk.injEq] at r1
      omega
    · simp only [Prod.mk.injEq] at r2
      omega
    · simp only [Prod.mk.injEq] at r3
      omega
    · simp only [Bool.and_eq_true, Bool.not_eq_true'] at h2
      exact absurd h1.1 (by simp [h2.2])
  · simp only [Prod.mk.injEq] at p3
    simp only [Bool.and_eq_true, Bool.not_eq_true'] at h1
    have hc : c = a := by omega
    have hd : d = b - 1 := by omega
    subst hc
    subst hd
    split_ifs at h2 with r1 r2 r3 r4
    · simp only [Bool.and_eq_true, Bool.not_eq_true'] at h2
      exact absurd h2.1 (by simp [h1.2])
    · simp only [Prod.mk.injEq] at r2
      omega
    · simp only [Prod.mk.injEq] at r3
      omega
    · simp only [Prod.mk.injEq] at r4
      omega
  · simp only [Prod.mk.injEq] at p4
    simp only [Bool.and_eq_true, Bool.not_eq_true'] at h1
    have hc : c = a - 1 := by omega
    have hd : d = b := by omega
    subst hc
    subst hd
    split_ifs at h2 with r1 r2 r3 r4
    · simp only [Prod.mk.injEq] at r1
      omega
    · simp only [Bool.and_eq_true, Bool.not_eq_true'] at h2
      exact absurd h2.1 (by simp [h1.2])
    · simp only [Prod.mk.injEq] at r3
      omega
    · simp only [Prod.mk.injEq] at r4
      omega

lemma generateEdges_norev (bm : List (List Bool)) : NoRev (generateEdges bm) := by
  intro e he hrev
  exact edgeOK_norev ((mem_generateEdges_iff_edgeOK bm e).mp he)
    ((mem_generateEdges_iff_edgeOK bm _).mp hrev)

lemma generateEdges_unit (bm : List (List Bool)) :
    ∀ e ∈ generateEdges bm, IsUnit e := fun e he =>
  edgeOK_unit ((mem_generateEdges_iff_edgeOK bm e).mp he)

end C64

namespace C64

lemma countP_congr_or {α : Type} (l : List α) (p q r : α → Bool)
    (h : ∀ a ∈ l, (p a = true ↔ (q a = true ∨ r a = true)) ∧
      ¬(q a = true ∧ r a = true)) :
    l.countP p = l.countP q + l.countP r := by
  induction l with
  | nil => rfl
  | cons a t ih =>
    have ha := h a (List.mem_cons_self _ _)
    have iht := ih (fun b hb => h b (List.mem_cons_of_mem _ hb))
    simp only [List.countP_cons]
    rcases hq : q a with _ | _ <;> rcases hr : r a with _ | _ <;>
      rcases hp : p a with _ | _ <;> simp_all <;> omega

lemma countP_eq_ite {α : Type} [DecidableEq α] (l : List α) (p : α → Bool)
    (c : α) (hn : l.Nodup) (hall : ∀ a ∈ l, p a = true → a = c) :
    l.countP p = if c ∈ l ∧ p c = true then 1 else 0 := by
  induction l with
  | nil => simp
  | cons a t ih =>
    have hnt := hn.of_cons
    have hat : a ∉ t := (List.nodup_cons.mp hn).1
    have iht := ih hnt (fun b hb hpb => hall b (List.mem_cons_of_mem _ hb) hpb)
    simp only [List.countP_cons]
    rcases hp : p a with _ | _
    · rw [iht]
      by_cases hc : c = a
      · subst hc
        simp [hp]
      · simp only [List.mem_cons]
        have hiff : (c = a ∨ c ∈ t) ↔ c ∈ t := by
          constructor
          · rintro (h | h)
            · exact absurd h hc
            · exact h
          · exact Or.inr
        rw [if_congr (and_congr_left' hiff) rfl rfl]
        simp
    · have hac : a = c := hall a (List.mem_cons_self _ _) hp
      subst hac
      rw [iht]
      have hcnot : ¬(a ∈ t ∧ p a = true) := fun hh => hat hh.1
      rw [if_neg hcnot,
        if_pos (⟨List.mem_cons_self _ _, hp⟩ : a ∈ a :: t ∧ p a = true)]
      simp

lemma length_filter_four {α : Type} (a b c d : α) (q : α → Bool) :
    (([a, b, c, d]).filter q).length =
      (if q a = true then 1 else 0) + (if q b = true then 1 else 0) +
      (if q c = true then 1 else 0) + (if q d = true then 1 else 0) := by
  rcases ha : q a with _ | _ <;> rcases hb : q b with _ | _ <;>
    rcases hc : q c with _ | _ <;> rcases hd : q d with _ | _ <;>
    simp [List.filter, ha, hb, hc, hd]

end C64

namespace C64

lemma countP_eq_ite' {α : Type} [DecidableEq α] (l : List α) (p : α → Bool)
    (c : α) (hn : l.Nodup) (hall : ∀ a ∈ l, p a = true → a = c)
    (hpc : p c = true) : l.countP p = if c ∈ l then 1 else 0 := by
  rw [countP_eq_ite l p c hn hall]
  by_cases h : c ∈ l <;> simp [h, hpc]

lemma point_beq_iff (p q : Point) : (p == q) = true ↔ p = q := beq_iff_eq

lemma countP_four_split {α : Type} (l : List α) (p q1 q2 q3 q4 : α → Bool)
    (h : ∀ a ∈ l, (if p a = true then 1 else 0) =
      (if q1 a = true then 1 else 0) + (if q2 a = true then 1 else 0) +
      (if q3 a = true then 1 else 0) + (if q4 a = true then 1 else 0)) :
    l.countP p = l.countP q1 + l.countP q2 + l.countP q3 + l.countP q4 := by
  induction l with
  | nil => rfl
  | cons a t ih =>
    have ha := h a (List.mem_cons_self _ _)
    have iht := ih (fun b hb => h b (List.mem_cons_of_mem _ hb))
    simp only [List.countP_cons]
    omega

lemma startP_cases {bm : List (List Bool)} {a : Edge} (ha : a ∈ generateEdges bm)
    (v : Point) :
    (if (a.1 == v) = true then 1 else 0) =
      (if ((a.1 == v) && (a.2 - a.1 == ((0 : Int), (1 : Int)))) = true then 1 else 0) +
      (if ((a.1 == v) && (a.2 - a.1 == ((1 : Int), (0 : Int)))) = true then 1 else 0) +
      (if ((a.1 == v) && (a.2 - a.1 == ((0 : Int), (-1 : Int)))) = true then 1 else 0) +
      (if ((a.1 == v) && (a.2 - a.1 == ((-1 : Int), (0 : Int)))) = true then 1 else 0) := by
  have hu := generateEdges_unit bm a ha
  rw [IsUnit, unitVecs] at hu
  simp only [List.mem_cons, List.not_mem_nil, or_false] at hu
  rcases hs : (a.1 == v) with _ | _ <;>
    rcases hu with h | h | h | h <;>
    rw [h] <;> simp

lemma endP_cases {bm : List (List Bool)} {a : Edge} (ha : a ∈ generateEdges bm)
    (v : Point) :
    (if (a.2 == v) = true then 1 else 0) =
      (if ((a.2 == v) && (a.2 - a.1 == ((0 : Int), (1 : Int)))) = true then 1 else 0) +
      (if ((a.2 == v) && (a.2 - a.1 == ((1 : Int), (0 : Int)))) = true then 1 else 0) +
      (if ((a.2 == v) && (a.2 - a.1 == ((0 : Int), (-1 : Int)))) = true then 1 else 0) +
      (if ((a.2 == v) && (a.2 - a.1 == ((-1 : Int), (0 : Int)))) = true then 1 else 0) := by
  have hu := generateEdges_unit bm a ha
  rw [IsUnit, unitVecs] at hu
  simp only [List.mem_cons, List.not_mem_nil, or_false] at hu
  rcases hs : (a.2 == v) with _ | _ <;>
    rcases hu with h | h | h | h <;>
    rw [h] <;> simp

lemma outdeg_eq (bm : List (List Bool)) (vx vy : Int) :
    (generateEdges bm).countP (fun e => e.1 == ((vx, vy) : Point)) =
      (if edgeOK bm ((vx, vy), (vx, vy + 1)) = true then 1 else 0) +
      (if edgeOK bm ((vx, vy), (vx + 1, vy)) = true then 1 else 0) +
      (if edgeOK bm ((vx, vy), (vx, vy - 1)) = true then 1 else 0) +
      (if edgeOK bm ((vx, vy), (vx - 1, vy)) = true then 1 else 0) := by
  have hnd := generateEdges_nodup bm
  rw [countP_four_split _ _
    (fun e => (e.1 == ((vx, vy) : Point)) && (e.2 - e.1 == ((0 : Int), (1 : Int))))
    (fun e => (e.1 == ((vx, vy) : Point)) && (e.2 - e.1 == ((1 : Int), (0 : Int))))
    (fun e => (e.1 == ((vx, vy) : Point)) && (e.2 - e.1 == ((0 : Int), (-1 : Int))))
    (fun e => (e.1 == ((vx, vy) : Point)) && (e.2 - e.1 == ((-1 : Int), (0 : Int))))
    (fun a ha => startP_cases ha ((vx, vy) : Point))]
  have key : ∀ (ux uy : Int),
      (generateEdges bm).countP
        (fun e => (e.1 == ((vx, vy) : Point)) && (e.2 - e.1 == ((ux, uy) : Point))) =
      if edgeOK bm ((vx, vy), (vx + ux, vy + uy)) = true then 1 else 0 := by
    intro ux uy
    rw [countP_eq_ite' _ _ (((vx, vy), (vx + ux, vy + uy)) : Edge) hnd ?_ ?_]
    · simp only [mem_generateEdges_iff_edgeOK]
    · intro a _ hq
      rcases a with ⟨⟨ax, ay⟩, ⟨bx, by'⟩⟩
      simp only [Prod.mk_sub_mk, Bool.and_eq_true, point_beq_iff,
        Prod.mk.injEq] at hq
      simp only [Prod.mk.injEq]
      omega
    · simp [Prod.mk_sub_mk]
  rw [key 0 1, key 1 0, key 0 (-1), key (-1) 0]
  simp only [add_zero, sub_zero, ← sub_eq_add_neg, sub_neg_eq_add]

lemma indeg_eq (bm : List (List Bool)) (vx vy : Int) :
    (generateEdges bm).countP (fun e => e.2 == ((vx, vy) : Point)) =
      (if edgeOK bm ((vx, vy - 1), (vx, vy)) = true then 1 else 0) +
      (if edgeOK bm ((vx - 1, vy), (vx, vy)) = true then 1 else 0) +
      (if edgeOK bm ((vx, vy + 1), (vx, vy)) = true then 1 else 0) +
      (if edgeOK bm ((vx + 1, vy), (vx, vy)) = true then 1 else 0) := by
  have hnd := generateEdges_nodup bm
  rw [countP_four_split _ _
    (fun e => (e.2 == ((vx, vy) : Point)) && (e.2 - e.1 == ((0 : Int), (1 : Int))))
    (fun e => (e.2 == ((vx, vy) : Point)) && (e.2 - e.1 == ((1 : Int), (0 : Int))))
    (fun e => (e.2 == ((vx, vy) : Point)) && (e.2 - e.1 == ((0 : Int), (-1 : Int))))
    (fun e => (e.2 == ((vx, vy) : Point)) && (e.2 - e.1 == ((-1 : Int), (0 : Int))))
    (fun a ha => endP_cases ha ((vx, vy) : Point))]
  have key : ∀ (ux uy : Int),
      (generateEdges bm).countP
        (fun e => (e.2 == ((vx, vy) : Point)) && (e.2 - e.1 == ((ux, uy) : Point))) =
      if edgeOK bm ((vx - ux, vy - uy), (vx, vy)) = true then 1 else 0 := by
    intro ux uy
    rw [countP_eq_ite' _ _ (((vx - ux, vy - uy), (vx, vy)) : Edge) hnd ?_ ?_]
    · simp only [mem_generateEdges_iff_edgeOK]
    · intro a _ hq
      rcases a with ⟨⟨ax, ay⟩, ⟨bx, by'⟩⟩
      simp only [Prod.mk_sub_mk, Bool.and_eq_true, point_beq_iff,
        Prod.mk.injEq] at hq
      simp only [Prod.mk.injEq]
      omega
    · simp [Prod.mk_sub_mk]
  rw [key 0 1, key 1 0, key 0 (-1), key (-1) 0]
  simp only [add_zero, sub_zero, ← sub_eq_add_neg, sub_neg_eq_add]

end C64

namespace C64

lemma edgeOK_evalA (bm : List (List Bool)) (x y : Int) :
    edgeOK bm ((x, y), (x, y + 1)) =
      (cellFilled bm x y && !cellFilled bm (x - 1) y) := by
  have hq : ((x, y + 1) : Point) - ((x, y) : Point) = ((0 : Int), (1 : Int)) := by
    rw [Prod.mk_sub_mk]; norm_num
  simp only [edgeOK, hq, if_pos]

lemma edgeOK_evalB (bm : List (List Bool)) (x y : Int) :
    edgeOK bm ((x, y), (x + 1, y)) =
      (cellFilled bm x (y - 1) && !cellFilled bm x y) := by
  have hq : ((x + 1, y) : Point) - ((x, y) : Point) = ((1 : Int), (0 : Int)) := by
    rw [Prod.mk_sub_mk]; norm_num
  simp only [edgeOK, hq]
  norm_num

lemma edgeOK_evalC (bm : List (List Bool)) (x y : Int) :
    edgeOK bm ((x, y), (x, y - 1)) =
      (cellFilled bm (x - 1) (y - 1) && !cellFilled bm x (y - 1)) := by
  have hq : ((x, y - 1) : Point) - ((x, y) : Point) = ((0 : Int), (-1 : Int)) := by
    rw [Prod.mk_sub_mk]; norm_num
  simp only [edgeOK, hq]
  norm_num

lemma edgeOK_evalD (bm : List (List Bool)) (x y : Int) :
    edgeOK bm ((x, y), (x - 1, y)) =
      (cellFilled bm (x - 1) y && !cellFilled bm (x - 1) (y - 1)) := by
  have hq : ((x - 1, y) : Point) - ((x, y) : Point) = ((-1 : Int), (0 : Int)) := by
    rw [Prod.mk_sub_mk]; norm_num
  simp only [edgeOK, hq]
  norm_num

lemma edgeOK_evalE (bm : List (List Bool)) (x y : Int) :
    edgeOK bm ((x, y - 1), (x, y)) =
      (cellFilled bm x (y - 1) && !cellFilled bm (x - 1) (y - 1)) := by
  have hq : ((x, y) : Point) - ((x, y - 1) : Point) = ((0 : Int), (1 : Int)) := by
    rw [Prod.mk_sub_mk]; norm_num
  simp only [edgeOK, hq, if_pos]

lemma edgeOK_evalF (bm : List (List Bool)) (x y : Int) :
    edgeOK bm ((x - 1, y), (x, y)) =
      (cellFilled bm (x - 1) (y - 1) && !cellFilled bm (x - 1) y) := by
  have hq : ((x, y) : Point) - ((x - 1, y) : Point) = ((1 : Int), (0 : Int)) := by
    rw [Prod.mk_sub_mk]; norm_num
  simp only [edgeOK, hq]
  norm_num

lemma edgeOK_evalG (bm : List (List Bool)) (x y : Int) :
    edgeOK bm ((x, y + 1), (x, y)) =
      (cellFilled bm (x - 1) y && !cellFilled bm x y) := by
  have hq : ((x, y) : Point) - ((x, y + 1) : Point) = ((0 : Int), (-1 : Int)) := by
    rw [Prod.mk_sub_mk]; norm_num
  simp only [edgeOK, hq]
  norm_num

lemma edgeOK_evalH (bm : List (List Bool)) (x y : Int) :
    edgeOK bm ((x + 1, y), (x, y)) =
      (cellFilled bm x y && !cellFilled bm x (y - 1)) := by
  have hq : ((x, y) : Point) - ((x + 1, y) : Point) = ((-1 : Int), (0 : Int)) := by
    rw [Prod.mk_sub_mk]; norm_num
  simp only [edgeOK, hq]
  norm_num

lemma balE_generateEdges (bm : List (List Bool)) (v : Point) :
    balE (generateEdges bm) v = 0 := by
  rcases v with ⟨vx, vy⟩
  rw [balE, outdeg_eq, indeg_eq, edgeOK_evalA, edgeOK_evalB, edgeOK_evalC,
    edgeOK_evalD, edgeOK_evalE, edgeOK_evalF, edgeOK_evalG, edgeOK_evalH]
  rcases hP : cellFilled bm vx vy with _ | _ <;>
    rcases hA : cellFilled bm (vx - 1) vy with _ | _ <;>
    rcases hQ : cellFilled bm vx (vy - 1) with _ | _ <;>
    rcases hD : cellFilled bm (vx - 1) (vy - 1) with _ | _ <;>
    simp [hP, hA, hQ, hD]

end C64

namespace C64

/-- Claim C7: every edge produced by `generateEdges` has another edge in the
same set whose start point equals this edge's end point, so the emitted
boundary has no dangling endpoints. -/
theorem C7_opposing_edge (bm : List (List Bool)) (hne : bm ≠ [])
    (hr : Rect bm) (e : Edge) (he : e ∈ generateEdges bm) :
    ∃ e' ∈ generateEdges bm, e' ≠ e ∧ e'.1 = e.2 := by
  have hbal := balE_generateEdges bm e.2
  rw [balE] at hbal
  have hin : 0 < (generateEdges bm).countP (fun f => f.2 == e.2) :=
    List.countP_pos_iff.mpr ⟨e, he, by simp⟩
  have hout : 0 < (generateEdges bm).countP (fun f => f.1 == e.2) := by omega
  obtain ⟨e', he', hb⟩ := List.countP_pos_iff.mp hout
  have heq : e'.1 = e.2 := by simpa using hb
  refine ⟨e', he', ?_, heq⟩
  intro hcon
  subst hcon
  have hu := generateEdges_unit bm e' he'
  rw [IsUnit, heq] at hu
  rcases e' with ⟨⟨a, b⟩, ⟨c, d⟩⟩
  simp only [Prod.mk_sub_mk, unitVecs, List.mem_cons, List.not_mem_nil,
    or_false, Prod.mk.injEq] at hu
  simp only [Prod.mk.injEq] at heq
  omega

/-- Witness for C7 on the single-cell grid. -/
theorem C7_witness : (([[true]] : List (List Bool)) ≠ [] ∧
    Rect [[true]] ∧ (((0 : Int), (0 : Int)), ((0 : Int), (1 : Int))) ∈
      generateEdges [[true]]) ∧
    ∃ e' ∈ generateEdges [[true]],
      e' ≠ (((0 : Int), (0 : Int)), ((0 : Int), (1 : Int))) ∧
      e'.1 = (((0 : Int), (0 : Int)), ((0 : Int), (1 : Int))).2 :=
  ⟨⟨by decide, by intro r hr; simp at hr; simp [hr], by decide⟩,
    C7_opposing_edge [[true]] (by decide)
      (by intro r hr; simp at hr; simp [hr]) _ (by decide)⟩

end C64

namespace C64

lemma edgesCross_countP (Pr : Point → Point → Prop)
    [inst : ∀ p q, Decidable (Pr p q)] (l : List Edge) :
    edgesCross (fun p q => if Pr p q then 1 else 0) l =
      l.countP (fun e => decide (Pr e.1 e.2)) := by
  induction l with
  | nil => rfl
  | cons a t ih =>
    simp only [edgesCross, List.map_cons, List.sum_cons, List.countP_cons]
    rw [show ((List.map (fun e => if Pr e.1 e.2 then 1 else 0) t).sum) =
      edgesCross (fun p q => if Pr p q then 1 else 0) t from rfl, ih]
    by_cases h : Pr a.1 a.2 <;> simp [h] <;> omega

lemma crossUp_countP (cx cy : Int) (l : List Edge) :
    edgesCross (crossUpF cx cy) l =
      l.countP (fun e =>
        decide (e.1.1 = e.2.1 ∧ e.1.1 ≤ cx ∧ e.1.2 ≤ cy ∧ cy < e.2.2)) :=
  edgesCross_countP _ l

lemma crossDown_countP (cx cy : Int) (l : List Edge) :
    edgesCross (crossDownF cx cy) l =
      l.countP (fun e =>
        decide (e.1.1 = e.2.1 ∧ e.1.1 ≤ cx ∧ e.2.2 ≤ cy ∧ cy < e.1.2)) :=
  edgesCross_countP _ l

lemma crossUp_zero (bm : List (List Bool)) (cx cy : Int) (hcx : cx < 0) :
    (generateEdges bm).countP (fun e =>
      decide (e.1.1 = e.2.1 ∧ e.1.1 ≤ cx ∧ e.1.2 ≤ cy ∧ cy < e.2.2)) = 0 := by
  rw [List.countP_eq_zero]
  intro e he
  have hnn := edgeOK_nonneg_x ((mem_generateEdges_iff_edgeOK bm e).mp he)
  simp only [decide_eq_true_eq]
  omega

lemma crossDown_zero (bm : List (List Bool)) (cx cy : Int) (hcx : cx < 0) :
    (generateEdges bm).countP (fun e =>
      decide (e.1.1 = e.2.1 ∧ e.1.1 ≤ cx ∧ e.2.2 ≤ cy ∧ cy < e.1.2)) = 0 := by
  rw [List.countP_eq_zero]
  intro e he
  have hnn := edgeOK_nonneg_x ((mem_generateEdges_iff_edgeOK bm e).mp he)
  simp only [decide_eq_true_eq]
  omega

lemma crossUp_step (bm : List (List Bool)) (cx cy : Int) :
    (generateEdges bm).countP (fun e =>
      decide (e.1.1 = e.2.1 ∧ e.1.1 ≤ cx + 1 ∧ e.1.2 ≤ cy ∧ cy < e.2.2)) =
    (generateEdges bm).countP (fun e =>
      decide (e.1.1 = e.2.1 ∧ e.1.1 ≤ cx ∧ e.1.2 ≤ cy ∧ cy < e.2.2)) +
    (if (cellFilled bm (cx + 1) cy && !cellFilled bm cx cy) = true
      then 1 else 0) := by
  rw [countP_congr_or _ _
    (fun e => decide (e.1.1 = e.2.1 ∧ e.1.1 ≤ cx ∧ e.1.2 ≤ cy ∧ cy < e.2.2))
    (fun e => decide (e.1.1 = e.2.1 ∧ e.1.1 = cx + 1 ∧ e.1.2 ≤ cy ∧ cy < e.2.2))
    ?_]
  · have hc : (generateEdges bm).countP (fun e =>
        decide (e.1.1 = e.2.1 ∧ e.1.1 = cx + 1 ∧ e.1.2 ≤ cy ∧ cy < e.2.2)) =
        if edgeOK bm ((cx + 1, cy), (cx + 1, cy + 1)) = true then 1 else 0 := by
      rw [countP_eq_ite' _ _ (((cx + 1, cy), (cx + 1, cy + 1)) : Edge)
        (generateEdges_nodup bm) ?_ ?_]
      · simp only [mem_generateEdges_iff_edgeOK]
      · intro a ha hq
        have hu := generateEdges_unit bm a ha
        rcases a with ⟨⟨ax, ay⟩, ⟨bx, by'⟩⟩
        rw [IsUnit] at hu
        simp only [Prod.mk_sub_mk, unitVecs, List.mem_cons, List.not_mem_nil,
          or_false, Prod.mk.injEq] at hu
        simp only [decide_eq_true_eq] at hq
        simp only [Prod.mk.injEq]
        omega
      · simp
    rw [hc, edgeOK_evalA]
    have hx : cx + 1 - 1 = cx := by omega
    rw [hx]
  · intro a _
    simp only [decide_eq_true_eq]
    constructor
    · constructor
      · intro h
        rcases Int.lt_or_le a.1.1 (cx + 1) with h1 | h1
        · exact Or.inl ⟨h.1, by omega, h.2.2⟩
        · exact Or.inr ⟨h.1, by omega, h.2.2⟩
      · rintro (h | h)
        · exact ⟨h.1, by omega, h.2.2⟩
        · exact ⟨h.1, by omega, h.2.2⟩
    · rintro ⟨h1, h2⟩
      omega

lemma crossDown_step (bm : List (List Bool)) (cx cy : Int) :
    (generateEdges bm).countP (fun e =>
      decide (e.1.1 = e.2.1 ∧ e.1.1 ≤ cx + 1 ∧ e.2.2 ≤ cy ∧ cy < e.1.2)) =
    (generateEdges bm).countP (fun e =>
      decide (e.1.1 = e.2.1 ∧ e.1.1 ≤ cx ∧ e.2.2 ≤ cy ∧ cy < e.1.2)) +
    (if (cellFilled bm cx cy && !cellFilled bm (cx + 1) cy) = true
      then 1 else 0) := by
  rw [countP_congr_or _ _
    (fun e => decide (e.1.1 = e.2.1 ∧ e.1.1 ≤ cx ∧ e.2.2 ≤ cy ∧ cy < e.1.2))
    (fun e => decide (e.1.1 = e.2.1 ∧ e.1.1 = cx + 1 ∧ e.2.2 ≤ cy ∧ cy < e.1.2))
    ?_]
  · have hc : (generateEdges bm).countP (fun e =>
        decide (e.1.1 = e.2.1 ∧ e.1.1 = cx + 1 ∧ e.2.2 ≤ cy ∧ cy < e.1.2)) =
        if edgeOK bm ((cx + 1, cy + 1), (cx + 1, cy)) = true then 1 else 0 := by
      rw [countP_eq_ite' _ _ (((cx + 1, cy + 1), (cx + 1, cy)) : Edge)
        (generateEdges_nodup bm) ?_ ?_]
      · simp only [mem_generateEdges_iff_edgeOK]
      · intro a ha hq
        have hu := generateEdges_unit bm a ha
        rcases a with ⟨⟨ax, ay⟩, ⟨bx, by'⟩⟩
        rw [IsUnit] at hu
        simp only [Prod.mk_sub_mk, unitVecs, List.mem_cons, List.not_mem_nil,
          or_false, Prod.mk.injEq] at hu
        simp only [decide_eq_true_eq] at hq
        simp only [Prod.mk.injEq]
        omega
      · simp
    rw [hc, edgeOK_evalG]
    have hx : cx + 1 - 1 = cx := by omega
    rw [hx]
  · intro a _
    simp only [decide_eq_true_eq]
    constructor
    · constructor
      · intro h
        rcases Int.lt_or_le a.1.1 (cx + 1) with h1 | h1
        · exact Or.inl ⟨h.1, by omega, h.2.2⟩
        · exact Or.inr ⟨h.1, by omega, h.2.2⟩
      · rintro (h | h)
        · exact ⟨h.1, by omega, h.2.2⟩
        · exact ⟨h.1, by omega, h.2.2⟩
    · rintro ⟨h1, h2⟩
      omega

lemma crossDiff (bm : List (List Bool)) (cy : Int) : ∀ cx : Int,
    (edgesCross (crossUpF cx cy) (generateEdges bm) : Int) -
      (edgesCross (crossDownF cx cy) (generateEdges bm) : Int) =
    if cellFilled bm cx cy = true then 1 else 0 := by
  have base : ∀ cx : Int, cx < 0 →
      (edgesCross (crossUpF cx cy) (generateEdges bm) : Int) -
        (edgesCross (crossDownF cx cy) (generateEdges bm) : Int) =
      if cellFilled bm cx cy = true then 1 else 0 := by
    intro cx hcx
    rw [crossUp_countP, crossDown_countP, crossUp_zero bm cx cy hcx,
      crossDown_zero bm cx cy hcx, cellFilled_neg_left bm cy hcx]
    simp
  have step : ∀ cx : Int, (-1 : Int) ≤ cx →
      ((edgesCross (crossUpF cx cy) (generateEdges bm) : Int) -
        (edgesCross (crossDownF cx cy) (generateEdges bm) : Int) =
        if cellFilled bm cx cy = true then 1 else 0) →
      ((edgesCross (crossUpF (cx + 1) cy) (generateEdges bm) : Int) -
        (edgesCross (crossDownF (cx + 1) cy) (generateEdges bm) : Int) =
        if cellFilled bm (cx + 1) cy = true then 1 else 0) := by
    intro cx _ ih
    rw [crossUp_countP, crossDown_countP, crossUp_step, crossDown_step]
    rw [crossUp_countP, crossDown_countP] at ih
    rcases h1 : cellFilled bm (cx + 1) cy with _ | _ <;>
      rcases h2 : cellFilled bm cx cy with _ | _ <;>
      rw [h2] at ih <;> simp at ih ⊢ <;> omega
  intro cx
  rcases Int.lt_or_le cx 0 with hcx | hcx
  · exact base cx hcx
  · exact @Int.le_induction (fun n =>
      (edgesCross (crossUpF n cy) (generateEdges bm) : Int) -
        (edgesCross (crossDownF n cy) (generateEdges bm) : Int) =
      if cellFilled bm n cy = true then 1 else 0) (-1)
      (base (-1) (by omega)) step cx (by omega)
end C64

namespace C64

lemma polyOpen_append (m : Point → Point → Nat) : ∀ (L : List Point) (a b : Point),
    polyOpen m (L ++ [a, b]) = polyOpen m (L ++ [a]) + m a b := by
  intro L
  induction L with
  | nil => intro a b; simp [polyOpen]
  | cons p L ih =>
    intro a b
    rcases L with _ | ⟨x, L'⟩
    · simp [polyOpen]
    · have h1 : (p :: x :: L') ++ [a, b] = p :: ((x :: L') ++ [a, b]) := rfl
      have h2 : (p :: x :: L') ++ [a] = p :: ((x :: L') ++ [a]) := rfl
      rw [h1, h2]
      have h3 : (x :: L') ++ [a, b] = x :: (L' ++ [a, b]) := rfl
      have h4 : (x :: L') ++ [a] = x :: (L' ++ [a]) := rfl
      rw [h3, h4, polyOpen, polyOpen]
      have h5 := ih a b
      rw [show (x :: L') ++ [a, b] = x :: (L' ++ [a, b]) from rfl,
        show (x :: L') ++ [a] = x :: (L' ++ [a]) from rfl] at h5
      omega

lemma setLast_pair (ps : List Point) (q B C : Point) :
    setLast (ps ++ [q, B]) C = ps ++ [q, C] := by
  rw [setLast]
  have h1 : ps ++ [q, B] = (ps ++ [q]) ++ [B] := by simp
  rw [h1, List.dropLast_concat]
  simp

lemma head?_append_pair (ps : List Point) (q B C : Point) :
    (ps ++ [q, B]).head? = (ps ++ [q, C]).head? := by
  rcases ps with _ | ⟨p, ps'⟩ <;> simp

lemma merge_dir {A B C d d' : Point} (hd : d ∈ unitVecs) (hd' : d' ∈ unitVecs)
    (hB : B = A + d) (hC : C = B + d') (hCA : C ≠ A) :
    ((C.1 = A.1 ∨ C.2 = A.2) ↔ d' = d) := by
  subst hB
  subst hC
  rcases A with ⟨ax, ay⟩
  rcases d with ⟨dx, dy⟩
  rcases d' with ⟨dx', dy'⟩
  simp only [unitVecs, List.mem_cons, List.not_mem_nil, or_false,
    Prod.mk.injEq] at hd hd'
  simp only [Prod.mk_add_mk, Prod.mk.injEq, ne_eq, not_and] at hCA ⊢
  omega

lemma norev_sublist {l l' : List Edge} (h : l'.Sublist l) (hn : NoRev l) :
    NoRev l' := fun e he hrev => hn e (h.mem he) (h.mem hrev)

lemma mergeAdd_crossUp (cx cy : Int) : MergeAdd (crossUpF cx cy) := by
  intro B d k hk hd
  rcases B with ⟨bx, by'⟩
  rcases d with ⟨dx, dy⟩
  simp only [unitVecs, List.mem_cons, List.not_mem_nil, or_false,
    Prod.mk.injEq] at hd
  rcases hd with ⟨h1, h2⟩ | ⟨h1, h2⟩ | ⟨h1, h2⟩ | ⟨h1, h2⟩ <;>
    subst h1 <;> subst h2 <;>
    simp only [Prod.smul_mk, smul_eq_mul, Prod.mk_sub_mk, Prod.mk_add_mk,
      crossUpF, mul_zero, mul_one, sub_zero, add_zero, eq_self_iff_true,
      true_and] <;>
    split_ifs <;> omega

lemma mergeAdd_crossDown (cx cy : Int) : MergeAdd (crossDownF cx cy) := by
  intro B d k hk hd
  rcases B with ⟨bx, by'⟩
  rcases d with ⟨dx, dy⟩
  simp only [unitVecs, List.mem_cons, List.not_mem_nil, or_false,
    Prod.mk.injEq] at hd
  rcases hd with ⟨h1, h2⟩ | ⟨h1, h2⟩ | ⟨h1, h2⟩ | ⟨h1, h2⟩ <;>
    subst h1 <;> subst h2 <;>
    simp only [Prod.smul_mk, smul_eq_mul, Prod.mk_sub_mk, Prod.mk_add_mk,
      crossDownF, mul_zero, mul_one, sub_zero, add_zero, eq_self_iff_true,
      true_and] <;>
    split_ifs <;> omega

end C64

namespace C64

lemma countP_perm_erase {l : List Edge} {a : Edge} (ha : a ∈ l)
    (p : Edge → Bool) :
    l.countP p = (l.erase a).countP p + (if p a = true then 1 else 0) := by
  induction l with
  | nil => simp at ha
  | cons b t ih =>
    rw [List.erase_cons]
    by_cases hb : b = a
    · subst hb
      rw [if_pos (by simp), List.countP_cons]
    · rw [if_neg (by simpa using hb)]
      have hat : a ∈ t := by
        rcases List.mem_cons.mp ha with h | h
        · exact absurd h.symm hb
        · exact h
      rw [List.countP_cons, List.countP_cons, ih hat]
      omega

lemma edgesCross_erase (m : Point → Point → Nat) {l : List Edge} {a : Edge}
    (ha : a ∈ l) :
    edgesCross m l = edgesCross m (l.erase a) + m a.1 a.2 := by
  induction l with
  | nil => simp at ha
  | cons b t ih =>
    rw [List.erase_cons]
    by_cases hb : b = a
    · subst hb
      rw [if_pos (by simp)]
      simp [edgesCross]
      omega
    · rw [if_neg (by simpa using hb)]
      have hat : a ∈ t := by
        rcases List.mem_cons.mp ha with h | h
        · exact absurd h.symm hb
        · exact h
      have hih := ih hat
      simp only [edgesCross, List.map_cons, List.sum_cons] at hih ⊢
      omega

lemma balE_erase {l : List Edge} {a : Edge} (ha : a ∈ l) (v : Point) :
    balE (l.erase a) v = balE l v - (if a.1 = v then 1 else 0) +
      (if a.2 = v then 1 else 0) := by
  rw [balE, balE, countP_perm_erase ha (fun e => e.1 == v),
    countP_perm_erase ha (fun e => e.2 == v)]
  have h1 : (if (a.1 == v) = true then (1 : Nat) else 0) =
      if a.1 = v then 1 else 0 := if_congr beq_iff_eq rfl rfl
  have h2 : (if (a.2 == v) = true then (1 : Nat) else 0) =
      if a.2 = v then 1 else 0 := if_congr beq_iff_eq rfl rfl
  simp only [h1, h2]
  split_ifs <;> push_cast <;> omega

lemma inner_success : ∀ (fuel : Nat) (start current : Edge)
    (contour : List Point) (pool : List Edge), pool.length < fuel →
    (∀ v, balE pool v = (if current.2 = v then 1 else 0) -
      (if start.1 = v then 1 else 0)) →
    ∃ c' pool', innerLoop fuel start current contour pool = .ok (c', pool') ∧
      ∀ v, balE pool' v = 0 := by
  intro fuel
  induction fuel with
  | zero => intro _ _ _ pool h; omega
  | succ n ih =>
    intro start current contour pool hfuel hbal
    by_cases hcs : current.2 = start.1
    · refine ⟨contour, pool, by rw [innerLoop_succ, if_pos hcs], ?_⟩
      intro v
      have := hbal v
      rw [hcs] at this
      omega
    · have hb1 : balE pool current.2 = 1 := by
        have := hbal current.2
        rw [if_pos rfl, if_neg (fun hh => hcs hh.symm)] at this
        omega
      have hout : 0 < pool.countP (fun e => e.1 == current.2) := by
        rw [balE] at hb1
        omega
      rcases hf : (pool.filter (fun e => e.1 == current.2)).head? with _ | nxt
      · exfalso
        rw [List.head?_eq_none_iff] at hf
        rw [List.countP_eq_length_filter, hf] at hout
        simp at hout
      · have hnf : nxt ∈ pool.filter (fun e => e.1 == current.2) :=
          List.mem_of_mem_head? (by rw [hf]; rfl)
        have hmem : nxt ∈ pool := (List.mem_filter.mp hnf).1
        have hn1 : nxt.1 = current.2 := by
          have := (List.mem_filter.mp hnf).2
          simpa using this
        have hbal' : ∀ v, balE (pool.erase nxt) v =
            (if nxt.2 = v then 1 else 0) - (if start.1 = v then 1 else 0) := by
          intro v
          rw [balE_erase hmem v, hbal v, hn1]
          split_ifs <;> omega
        have hflen : (pool.erase nxt).length < n := by
          rw [List.length_erase_of_mem hmem]
          have : 1 ≤ pool.length := List.length_pos.mpr (List.ne_nil_of_mem hmem)
          omega
        obtain ⟨c', pool', heq, hb⟩ := ih start nxt
          (updContour contour current nxt) (pool.erase nxt) hflen hbal'
        refine ⟨c', pool', ?_, hb⟩
        rw [innerLoop_succ, if_neg hcs, hf]
        exact heq

end C64

namespace C64

lemma inner_conserve (m : Point → Point → Nat) (hm : MergeAdd m) :
    ∀ (fuel : Nat) (start current : Edge) (contour : List Point)
      (pool : List Edge) (c' : List Point) (pool' : List Edge),
    (∀ e ∈ pool, IsUnit e) → IsUnit current → NoRev pool →
    ((current.2, current.1) ∉ pool) →
    (∃ (ps : List Point) (k : Nat), 1 ≤ k ∧
      contour = ps ++ [current.2 - (k : Int) • (current.2 - current.1),
        current.2]) →
    innerLoop fuel start current contour pool = .ok (c', pool') →
    (polyOpen m c' + edgesCross m pool' =
      polyOpen m contour + edgesCross m pool) ∧
    c'.head? = contour.head? ∧
    ∃ ps' : List Point, ps' ≠ [] ∧ c' = ps' ++ [start.1] := by
  intro fuel
  induction fuel with
  | zero =>
    intro _ _ _ _ _ _ _ _ _ _ _ heq
    simp [innerLoop] at heq
  | succ n ih =>
    intro start current contour pool c' pool' hunit hcu hnorev hrc htail heq
    rw [innerLoop_succ] at heq
    by_cases hcs : current.2 = start.1
    · rw [if_pos hcs] at heq
      simp only [Except.ok.injEq, Prod.mk.injEq] at heq
      obtain ⟨hc', hp'⟩ := heq
      subst hc'
      subst hp'
      refine ⟨rfl, rfl, ?_⟩
      obtain ⟨ps, k, _, hcon⟩ := htail
      refine ⟨ps ++ [current.2 - (k : Int) • (current.2 - current.1)], by simp, ?_⟩
      rw [hcon, hcs]
      simp
    · rw [if_neg hcs] at heq
      rcases hf : (pool.filter (fun e => e.1 == current.2)).head? with _ | nxt
      · rw [hf] at heq
        simp at heq
      · rw [hf] at heq
        have hnf : nxt ∈ pool.filter (fun e => e.1 == current.2) :=
          List.mem_of_mem_head? (by rw [hf]; rfl)
        have hmem : nxt ∈ pool := (List.mem_filter.mp hnf).1
        have hn1 : nxt.1 = current.2 := by
          have := (List.mem_filter.mp hnf).2
          simpa using this
        have hdu : IsUnit nxt := hunit nxt hmem
        obtain ⟨ps, k, hk, hcon⟩ := htail
        have hCA : nxt.2 ≠ current.1 := by
          intro hc
          apply hrc
          have : nxt = (current.2, current.1) := by
            rw [← hn1, ← hc]
          rw [← this]
          exact hmem
        have hmergeiff : (nxt.2.1 = current.1.1 ∨ nxt.2.2 = current.1.2) ↔
            (nxt.2 - nxt.1 = current.2 - current.1) := by
          have hB : current.2 = current.1 + (current.2 - current.1) := by abel
          have hC : nxt.2 = current.2 + (nxt.2 - nxt.1) := by
            rw [← hn1]
            abel
          exact merge_dir hcu hdu hB hC hCA
        have hsub : (pool.erase nxt).Sublist pool := List.erase_sublist _ _
        have hunit' : ∀ e ∈ pool.erase nxt, IsUnit e :=
          fun e he => hunit e (hsub.mem he)
        have hnorev' : NoRev (pool.erase nxt) := norev_sublist hsub hnorev
        have hrc' : ((nxt.2, nxt.1) ∉ pool.erase nxt) := by
          intro hc
          exact hnorev nxt hmem (hsub.mem hc)
        have hecr := edgesCross_erase m hmem
        simp only [updContour] at heq
        by_cases hcond : nxt.2.1 = current.1.1 ∨ nxt.2.2 = current.1.2
        · rw [if_pos hcond] at heq
          have hd : nxt.2 - nxt.1 = current.2 - current.1 := hmergeiff.mp hcond
          rw [hcon, setLast_pair] at heq
          have htail' : ∃ (ps2 : List Point) (k2 : Nat), 1 ≤ k2 ∧
              ps ++ [current.2 - (k : Int) • (current.2 - current.1), nxt.2] =
              ps2 ++ [nxt.2 - (k2 : Int) • (nxt.2 - nxt.1), nxt.2] := by
            refine ⟨ps, k + 1, by omega, ?_⟩
            have harg : nxt.2 - ((k + 1 : Nat) : Int) • (nxt.2 - nxt.1) =
                current.2 - (k : Int) • (current.2 - current.1) := by
              have h2 : nxt.2 = current.2 + (current.2 - current.1) := by
                have h3 := hd
                rw [hn1] at h3
                rw [← h3]
                abel
              rw [hd, h2]
              have hcast : ((k + 1 : Nat) : Int) = (k : Int) + 1 := by
                push_cast
                ring
              rw [hcast, add_smul, one_smul]
              abel
            rw [harg]
          obtain ⟨hsum, hhead, hshape⟩ := ih start nxt
            (ps ++ [current.2 - (k : Int) • (current.2 - current.1), nxt.2])
            (pool.erase nxt) c' pool' hunit' hdu hnorev' hrc' htail' heq
          have hma : m (current.2 - (k : Int) • (current.2 - current.1))
                current.2 + m current.2 nxt.2 =
              m (current.2 - (k : Int) • (current.2 - current.1)) nxt.2 := by
            have hC2 : nxt.2 = current.2 + (current.2 - current.1) := by
              have : nxt.2 = current.2 + (nxt.2 - nxt.1) := by
                rw [← hn1]; abel
              rw [this, hd]
            have hdmem : current.2 - current.1 ∈ unitVecs := hcu
            have := hm current.2 (current.2 - current.1) k hk hdmem
            rw [← hC2] at this
            exact this
          have hpo1 := polyOpen_append m ps
            (current.2 - (k : Int) • (current.2 - current.1)) nxt.2
          have hpo2 := polyOpen_append m ps
            (current.2 - (k : Int) • (current.2 - current.1)) current.2
          have hn2 : m nxt.1 nxt.2 = m current.2 nxt.2 := by rw [hn1]
          refine ⟨?_, ?_, hshape⟩
          · rw [hcon, hpo2]
            rw [hpo1] at hsum
            rw [hn2] at hecr
            omega
          · rw [hhead, hcon]
            exact head?_append_pair _ _ _ _
        · rw [if_neg hcond] at heq
          have hd : nxt.2 - nxt.1 ≠ current.2 - current.1 := fun hc =>
            hcond (hmergeiff.mpr hc)
          have hshape2 : contour ++ [nxt.2] =
              (ps ++ [current.2 - (k : Int) • (current.2 - current.1)]) ++
                [current.2, nxt.2] := by
            rw [hcon]
            simp
          have htail' : ∃ (ps2 : List Point) (k2 : Nat), 1 ≤ k2 ∧
              contour ++ [nxt.2] =
              ps2 ++ [nxt.2 - (k2 : Int) • (nxt.2 - nxt.1), nxt.2] := by
            refine ⟨ps ++ [current.2 - (k : Int) • (current.2 - current.1)],
              1, le_refl 1, ?_⟩
            rw [hshape2]
            have harg : nxt.2 - ((1 : Nat) : Int) • (nxt.2 - nxt.1) =
                current.2 := by
              push_cast
              rw [one_smul, hn1]
              abel
            rw [harg]
          obtain ⟨hsum, hhead, hshape⟩ := ih start nxt (contour ++ [nxt.2])
            (pool.erase nxt) c' pool' hunit' hdu hnorev' hrc' htail' heq
          have hpo : polyOpen m (contour ++ [nxt.2]) =
              polyOpen m contour + m current.2 nxt.2 := by
            rw [hshape2]
            have := polyOpen_append m
              (ps ++ [current.2 - (k : Int) • (current.2 - current.1)])
              current.2 nxt.2
            rw [this, hcon]
            simp
          have hn2 : m nxt.1 nxt.2 = m current.2 nxt.2 := by rw [hn1]
          refine ⟨?_, ?_, hshape⟩
          · rw [hpo] at hsum
            rw [hn2] at hecr
            omega
          · rw [hhead]
            rcases hps : contour with _ | ⟨p0, rest⟩
            · rw [hps] at hcon
              simp at hcon
            · simp
end C64

namespace C64

lemma outer_run (m : Point → Point → Nat) (hm : MergeAdd m) :
    ∀ (fuel : Nat) (pool : List Edge) (acc : List Contour),
    pool.length < fuel →
    (∀ e ∈ pool, IsUnit e) → NoRev pool → (∀ v, balE pool v = 0) →
    ∃ cs, outerLoop fuel pool acc = .ok (acc ++ cs) ∧
      contoursCross m cs = edgesCross m pool := by
  intro fuel
  induction fuel with
  | zero => intro pool _ h; omega
  | succ n ih =>
    intro pool acc hfuel hunit hnorev hbal
    by_cases hlen : pool.length ≤ 1
    · rcases pool with _ | ⟨e, rest⟩
      · exact ⟨[], by rw [outerLoop_succ, if_pos hlen, List.append_nil],
          by simp [contoursCross, edgesCross]⟩
      · exfalso
        have hrest : rest = [] := by
          rcases rest with _ | ⟨f, r⟩
          · rfl
          · simp at hlen
        subst hrest
        have hb := hbal e.1
        have hu := hunit e (List.mem_cons_self _ _)
        have hne : e.2 ≠ e.1 := by
          rcases e with ⟨⟨a, b⟩, ⟨c, d⟩⟩
          rw [IsUnit] at hu
          simp only [Prod.mk_sub_mk, unitVecs, List.mem_cons,
            List.not_mem_nil, or_false, Prod.mk.injEq] at hu
          simp only [ne_eq, Prod.mk.injEq, not_and]
          intro h1 h2
          omega
        rw [balE] at hb
        simp only [List.countP_cons, List.countP_nil] at hb
        rw [show (e.1 == e.1) = true by simp,
          show (e.2 == e.1) = false by simpa using hne] at hb
        simp at hb
    · rcases pool with _ | ⟨start, rest⟩
      · simp at hlen
      · have hbal' : ∀ v, balE rest v =
            (if start.2 = v then 1 else 0) - (if start.1 = v then 1 else 0) := by
          intro v
          have herase : (start :: rest).erase start = rest :=
            List.erase_cons_head _ _
          have := balE_erase (List.mem_cons_self start rest) v
          rw [herase] at this
          rw [this, hbal v]
          omega
        obtain ⟨c', pool', heq, hbalf⟩ := inner_success (rest.length + 1)
          start start [start.1, start.2] rest (by omega) hbal'
        have hstartu : IsUnit start := hunit start (List.mem_cons_self _ _)
        have hrestsub : rest.Sublist (start :: rest) :=
          List.sublist_cons_self _ _
        have htail0 : ∃ (ps : List Point) (k : Nat), 1 ≤ k ∧
            ([start.1, start.2] : List Point) =
            ps ++ [start.2 - (k : Int) • (start.2 - start.1), start.2] := by
          refine ⟨[], 1, le_refl 1, ?_⟩
          have harg : start.2 - ((1 : Nat) : Int) • (start.2 - start.1) =
              start.1 := by
            push_cast
            rw [one_smul]
            abel
          rw [harg]
          rfl
        obtain ⟨hsum, hhead, ps', hpsne, hc'⟩ := inner_conserve m hm
          (rest.length + 1) start start [start.1, start.2] rest c' pool'
          (fun e he => hunit e (List.mem_cons_of_mem _ he)) hstartu
          (norev_sublist hrestsub hnorev)
          (fun hc => hnorev start (List.mem_cons_self _ _) (hrestsub.mem hc))
          htail0 heq
        have hdrop : c'.dropLast = ps' := by
          rw [hc', List.dropLast_concat]
        rcases ps' with _ | ⟨p0, pr⟩
        · exact absurd rfl hpsne
        · have hp0 : p0 = start.1 := by
            rw [hc'] at hhead
            simpa using hhead
          have hclosed : polyClosed m (p0 :: pr) = polyOpen m c' := by
            rw [polyClosed, hc']
            have : (p0 :: pr).take 1 = [p0] := rfl
            rw [this, hp0]
          have hsubp : pool'.Sublist rest :=
            innerLoop_sublist _ start start _ rest c' pool' heq
          have hlenp : pool'.length < n := by
            have h1 := hsubp.length_le
            simp only [List.length_cons] at hfuel
            omega
          obtain ⟨cs', houter, hsum'⟩ := ih pool' (acc ++ [c'.dropLast]) hlenp
            (fun e he => hunit e (List.mem_cons_of_mem _ (hsubp.mem he)))
            (norev_sublist (hsubp.trans hrestsub) hnorev) hbalf
          refine ⟨c'.dropLast :: cs', ?_, ?_⟩
          · rw [outerLoop_succ, if_neg hlen]
            show (match innerLoop (rest.length + 1) start start
                [start.1, start.2] rest with
              | Except.error e => Except.error e
              | Except.ok (contour, edgeList') =>
                  outerLoop n edgeList' (acc ++ [contour.dropLast])) =
              Except.ok (acc ++ c'.dropLast :: cs')
            rw [heq]
            show outerLoop n pool' (acc ++ [c'.dropLast]) =
              Except.ok (acc ++ c'.dropLast :: cs')
            rw [houter, show (acc ++ [c'.dropLast]) ++ cs' =
              acc ++ (c'.dropLast :: cs') by simp]
          · rw [contoursCross, List.map_cons, List.sum_cons,
              show (List.map (polyClosed m) cs').sum = contoursCross m cs'
                from rfl, hsum', hdrop, hclosed]
            have hpool : edgesCross m (start :: rest) =
                m start.1 start.2 + edgesCross m rest := by
              simp [edgesCross]
            have hopen : polyOpen m [start.1, start.2] =
                m start.1 start.2 := by
              simp [polyOpen]
            rw [hopen] at hsum
            omega

end C64

namespace C64

lemma balE_perm {l l' : List Edge} (h : l.Perm l') (v : Point) :
    balE l v = balE l' v := by
  rw [balE, balE, h.countP_eq, h.countP_eq]

lemma edgesCross_perm (m : Point → Point → Nat) {l l' : List Edge}
    (h : l.Perm l') : edgesCross m l = edgesCross m l' :=
  (h.map _).sum_eq

lemma mergeRun (bm : List (List Bool)) (m : Point → Point → Nat)
    (hm : MergeAdd m) :
    ∃ cs, mergeContours (generateEdges bm) = .ok cs ∧
      contoursCross m cs = edgesCross m (generateEdges bm) := by
  have hperm : (pySorted (generateEdges bm)).Perm (generateEdges bm) :=
    pySorted_perm _
  have hu : ∀ e ∈ pySorted (generateEdges bm), IsUnit e :=
    fun e he => generateEdges_unit bm e (hperm.mem_iff.mp he)
  have hnr : NoRev (pySorted (generateEdges bm)) := fun e he hrev =>
    generateEdges_norev bm e (hperm.mem_iff.mp he) (hperm.mem_iff.mp hrev)
  have hbal : ∀ v, balE (pySorted (generateEdges bm)) v = 0 := fun v => by
    rw [balE_perm hperm v]
    exact balE_generateEdges bm v
  have hflen : (pySorted (generateEdges bm)).length <
      (generateEdges bm).length + 1 := by
    rw [pySorted_length]
    omega
  obtain ⟨cs, hrun, hsum⟩ := outer_run m hm ((generateEdges bm).length + 1)
    (pySorted (generateEdges bm)) [] hflen hu hnr hbal
  refine ⟨cs, ?_, ?_⟩
  · rw [mergeContours, hrun]
    simp
  · rw [hsum, edgesCross_perm m hperm]

/-- Claim C1: for every rectangular bitmap, the pipeline `generateEdges`
followed by `mergeContours` succeeds, and the set of unit cells enclosed by
the resulting unscaled contours equals the set of filled cells of the grid,
both under the even-odd fill rule (`cellEO`) and under the nonzero winding
rule (`cellNZ`), where enclosure counts crossings of a leftward ray from the
cell centre with the contours, closing segments included. -/
theorem C1_area (bm : List (List Bool)) (hne : bm ≠ []) (hr : Rect bm) :
    ∃ cs, mergeContours (generateEdges bm) = .ok cs ∧
      ∀ cx cy : Int,
        (cellEO cs cx cy ↔ cellFilled bm cx cy = true) ∧
        (cellNZ cs cx cy ↔ cellFilled bm cx cy = true) := by
  obtain ⟨cs, hrun, _⟩ := mergeRun bm (crossUpF 0 0) (mergeAdd_crossUp 0 0)
  refine ⟨cs, hrun, ?_⟩
  intro cx cy
  obtain ⟨cs1, hrun1, hsum1⟩ := mergeRun bm (crossUpF cx cy)
    (mergeAdd_crossUp cx cy)
  obtain ⟨cs2, hrun2, hsum2⟩ := mergeRun bm (crossDownF cx cy)
    (mergeAdd_crossDown cx cy)
  rw [hrun] at hrun1 hrun2
  have hcs1 : cs1 = cs := (Except.ok.inj hrun1).symm
  have hcs2 : cs2 = cs := (Except.ok.inj hrun2).symm
  rw [hcs1] at hsum1
  rw [hcs2] at hsum2
  have hdiff := crossDiff bm cy cx
  rw [← hsum1, ← hsum2] at hdiff
  have hsplit : (cellFilled bm cx cy = false ∧
      (contoursCross (crossUpF cx cy) cs : Int) =
        (contoursCross (crossDownF cx cy) cs : Int)) ∨
      (cellFilled bm cx cy = true ∧
      (contoursCross (crossUpF cx cy) cs : Int) =
        (contoursCross (crossDownF cx cy) cs : Int) + 1) := by
    rcases hcf : cellFilled bm cx cy with _ | _
    · left
      refine ⟨rfl, ?_⟩
      rw [hcf] at hdiff
      simp only [Bool.false_eq_true, if_false] at hdiff
      omega
    · right
      refine ⟨rfl, ?_⟩
      rw [hcf] at hdiff
      simp only [if_true] at hdiff
      omega
  constructor
  · rw [cellEO]
    rcases hsplit with ⟨hcf, hEq⟩ | ⟨hcf, hEq⟩ <;> rw [hcf]
    · constructor
      · intro h
        exfalso
        omega
      · intro h
        exact absurd h (by simp)
    · constructor
      · intro _
        rfl
      · intro _
        omega
  · rw [cellNZ]
    rcases hsplit with ⟨hcf, hEq⟩ | ⟨hcf, hEq⟩ <;> rw [hcf]
    · constructor
      · intro h
        exact absurd hEq h
      · intro h
        exact absurd h (by simp)
    · constructor
      · intro _
        rfl
      · intro _
        omega

/-- Witness for C1 on the single-cell grid. -/
theorem C1_witness : (([[true]] : List (List Bool)) ≠ [] ∧ Rect [[true]]) ∧
    (∃ cs, mergeContours (generateEdges [[true]]) = .ok cs ∧
      ∀ cx cy : Int,
        (cellEO cs cx cy ↔ cellFilled [[true]] cx cy = true) ∧
        (cellNZ cs cx cy ↔ cellFilled [[true]] cx cy = true)) :=
  ⟨⟨by decide, by intro r hr; simp at hr; simp [hr]⟩,
    C1_area [[true]] (by decide) (by intro r hr; simp at hr; simp [hr])⟩

end C64

namespace C64

lemma edgeOK_evalC2 (bm : List (List Bool)) (x y : Int) :
    edgeOK bm ((x + 1, y + 1), (x + 1, y)) =
      (cellFilled bm x y && !cellFilled bm (x + 1) y) := by
  have hq : ((x + 1, y) : Point) - ((x + 1, y + 1) : Point) =
      ((0 : Int), (-1 : Int)) := by
    rw [Prod.mk_sub_mk]; norm_num
  simp only [edgeOK, hq]
  norm_num

/-- Claim C6: an edge is emitted by `generateEdges` exactly when some filled
cell `(x, y)` has an absent-or-unfilled neighbour on the corresponding side,
with the coordinates of the claim: left side `(x,y)->(x,y+1)`, top side
`(x,y+1)->(x+1,y+1)`, right side `(x+1,y+1)->(x+1,y)`, bottom side
`(x+1,y)->(x,y)`; and no other edges are emitted (the iff's forward
direction). -/
theorem C6_edge_spec (bm : List (List Bool)) (hne : bm ≠ []) (hr : Rect bm)
    (e : Edge) :
    e ∈ generateEdges bm ↔
      ∃ x y : Int, cellFilled bm x y = true ∧
        ((cellFilled bm (x - 1) y = false ∧ e = ((x, y), (x, y + 1))) ∨
         (cellFilled bm x (y + 1) = false ∧
           e = ((x, y + 1), (x + 1, y + 1))) ∨
         (cellFilled bm (x + 1) y = false ∧
           e = ((x + 1, y + 1), (x + 1, y))) ∨
         (cellFilled bm x (y - 1) = false ∧ e = ((x + 1, y), (x, y)))) := by
  rw [mem_generateEdges_iff_edgeOK]
  constructor
  · intro hok
    rcases e with ⟨⟨a, b⟩, ⟨c, d⟩⟩
    have hq : ((c, d) : Point) - ((a, b) : Point) = (c - a, d - b) :=
      Prod.mk_sub_mk c a d b
    simp only [edgeOK, hq] at hok
    split_ifs at hok with q1 q2 q3 q4
    · simp only [Prod.mk.injEq] at q1
      simp only [Bool.and_eq_true, Bool.not_eq_true'] at hok
      exact ⟨a, b, hok.1, Or.inl ⟨hok.2, by
        simp only [Prod.mk.injEq, eq_self_iff_true, true_and, and_true]
        omega⟩⟩
    · simp only [Prod.mk.injEq] at q2
      simp only [Bool.and_eq_true, Bool.not_eq_true'] at hok
      refine ⟨a, b - 1, hok.1, Or.inr (Or.inl ⟨?_, ?_⟩)⟩
      · have hb : b - 1 + 1 = b := by omega
        rw [hb]
        exact hok.2
      · simp only [Prod.mk.injEq, eq_self_iff_true, true_and, and_true]
        omega
    · simp only [Prod.mk.injEq] at q3
      simp only [Bool.and_eq_true, Bool.not_eq_true'] at hok
      refine ⟨a - 1, d, hok.1, Or.inr (Or.inr (Or.inl ⟨?_, ?_⟩))⟩
      · have ha : a - 1 + 1 = a := by omega
        rw [ha]
        exact hok.2
      · simp only [Prod.mk.injEq, eq_self_iff_true, true_and, and_true]
        omega
    · simp only [Prod.mk.injEq] at q4
      simp only [Bool.and_eq_true, Bool.not_eq_true'] at hok
      refine ⟨c, d, hok.1, Or.inr (Or.inr (Or.inr ⟨hok.2, ?_⟩))⟩
      simp only [Prod.mk.injEq, eq_self_iff_true, true_and, and_true]
      omega
  · rintro ⟨x, y, hcf, ⟨hn, rfl⟩ | ⟨hn, rfl⟩ | ⟨hn, rfl⟩ | ⟨hn, rfl⟩⟩
    · rw [edgeOK_evalA, hcf, hn]
      rfl
    · rw [edgeOK_evalB]
      have hb : y + 1 - 1 = y := by omega
      rw [hb, hcf, hn]
      rfl
    · rw [edgeOK_evalC2, hcf, hn]
      rfl
    · rw [edgeOK_evalH, hcf, hn]
      rfl

/-- Witness for C6 on the single-cell grid and its left edge. -/
theorem C6_witness : (([[true]] : List (List Bool)) ≠ [] ∧ Rect [[true]]) ∧
    ((((0 : Int), (0 : Int)), ((0 : Int), (1 : Int))) ∈ generateEdges [[true]] ↔
      ∃ x y : Int, cellFilled [[true]] x y = true ∧
        ((cellFilled [[true]] (x - 1) y = false ∧
           ((((0 : Int), (0 : Int)), ((0 : Int), (1 : Int))) : Edge) =
             ((x, y), (x, y + 1))) ∨
         (cellFilled [[true]] x (y + 1) = false ∧
           ((((0 : Int), (0 : Int)), ((0 : Int), (1 : Int))) : Edge) =
             ((x, y + 1), (x + 1, y + 1))) ∨
         (cellFilled [[true]] (x + 1) y = false ∧
           ((((0 : Int), (0 : Int)), ((0 : Int), (1 : Int))) : Edge) =
             ((x + 1, y + 1), (x + 1, y))) ∨
         (cellFilled [[true]] x (y - 1) = false ∧
           ((((0 : Int), (0 : Int)), ((0 : Int), (1 : Int))) : Edge) =
             ((x + 1, y), (x, y))))) :=
  ⟨⟨by decide, by intro r hr; simp at hr; simp [hr]⟩,
    C6_edge_spec [[true]] (by decide) (by intro r hr; simp at hr; simp [hr]) _⟩

end C64
